import Mathlib

/-!
# A verification of the `devbench.py` span tree

This file gives a shallow embedding of the core of `src/devbench.py` — the
`Process` span tree with its `begin`/`end` protocol, the JSON snapshot
round-trip, the `DevPrinter` shutdown counter and the `time_str` duration
formatter — and proves (or refutes) the specified properties.

Modelling conventions:
* Wall-clock timestamps (Python floats produced by `time.time()`) are modelled
  as rationals `ℚ`; every operation that reads the clock takes the current
  time `now : ℚ` as an explicit argument.
* The sentinel for "no end time" is `-1`, exactly as in the source
  (`self.end_time = -1`, `ended()` is `end_time != -1`).
* A `Process` owns its children; the Python `parent` back-pointer is the
  inverse of the ownership edge and is represented implicitly by the tree
  structure itself.
* The child list `self.children` is append-at-the-end in Python, and the
  operations always work on `self.children[-1]`.  We store the children
  most-recent-first (`PList.cons` is Python's `append`, the head is Python's
  `children[-1]`), so that the recursion of `begin`/`end` is structural.
  Whenever the *insertion* order matters ("the i-th child ever added") it is
  recovered by indexing from the tail, see `getN?` and `getNL`.
* Raising an exception is modelled by returning `none`.
-/

/-- Python's `str.lower()` restricted to ASCII, applied characterwise
(`Process.__init__` does `self.name = name.lower()`). -/
def lowerChar (c : Char) : Char :=
  if c.isUpper then Char.ofNat (c.toNat + 32) else c

/-- Python's `name.lower()` on a whole string. -/
def pyLower (s : String) : String := ⟨s.data.map lowerChar⟩

mutual
/-- One span node: `Process.__init__` stores `name` (lower-cased),
`begin_time` (the clock at construction), `end_time` (sentinel `-1`),
`personal_time = 0`, `total_time = 0` and an empty child list.
The `parent` back-reference of the Python object is the tree edge itself. -/
inductive Process where
  | mk (name : String) (begin_time : ℚ) (end_time : ℚ)
       (personal_time : ℚ) (total_time : ℚ) (children : PList)

/-- The child list of a `Process`, stored most-recent-first:
`PList.cons c cs` is the Python list whose `[-1]` element is `c`. -/
inductive PList where
  | nil
  | cons (c : Process) (cs : PList)
end

def Process.name : Process → String
  | .mk n _ _ _ _ _ => n

def Process.begin_time : Process → ℚ
  | .mk _ bt _ _ _ _ => bt

def Process.end_time : Process → ℚ
  | .mk _ _ et _ _ _ => et

def Process.personal_time : Process → ℚ
  | .mk _ _ _ pt _ _ => pt

def Process.total_time : Process → ℚ
  | .mk _ _ _ _ tt _ => tt

def Process.children : Process → PList
  | .mk _ _ _ _ _ cs => cs

/-- Number of children (`len(self.children)`). -/
def PList.length : PList → ℕ
  | .nil => 0
  | .cons _ cs => cs.length + 1

/-- `Process(name, parent)` built at clock time `now`: lower-cased name,
`begin_time = now`, not ended, zero personal and total time, no children. -/
def Process.make (name : String) (now : ℚ) : Process :=
  .mk (pyLower name) now (-1) 0 0 .nil

/-- `Process.ended()`: `return self.end_time != -1`. -/
def Process.ended (p : Process) : Prop := p.end_time ≠ -1

instance (p : Process) : Decidable p.ended := by
  unfold Process.ended; infer_instance

/-- `Process.begin(name)` at clock time `now`.  Raises (returns `none`) on an
already ended node; with no children, or an ended last child, it adds the gap
since its previous marker (own `begin_time`, or the last child's `end_time`)
to both `personal_time` and `total_time` and appends a fresh child; otherwise
it delegates to the still-running last child. -/
def Process.begin (now : ℚ) (nm : String) : Process → Option Process
  | .mk n bt et pt tt .nil =>
      if et ≠ -1 then none
      else some (.mk n bt et (pt + (now - bt)) (tt + (now - bt))
        (.cons (Process.make nm now) .nil))
  | .mk n bt et pt tt (.cons c cs) =>
      if et ≠ -1 then none
      else if c.end_time ≠ -1 then
        some (.mk n bt et (pt + (now - c.end_time)) (tt + (now - c.end_time))
          (.cons (Process.make nm now) (.cons c cs)))
      else
        (Process.begin now nm c).map (fun c1 => Process.mk n bt et pt tt (.cons c1 cs))

/-- `Process.end()` at clock time `now`, returning the name of the span that
closed together with the updated node.  With no children, or an ended last
child, it sets `end_time = now`, adds the gap since the previous marker to
both `personal_time` and `total_time`, and returns its own name; otherwise it
recurses into the running last child, and if that child thereby transitioned
to ended, adds the child's final `total_time` to this node's `total_time`
(not to `personal_time`), propagating the closed name unmodified.
Exactly as in the source, there is no ended-guard on `end()`. -/
def Process.endSpan (now : ℚ) : Process → String × Process
  | .mk n bt _ pt tt .nil =>
      (n, .mk n bt now (pt + (now - bt)) (tt + (now - bt)) .nil)
  | .mk n bt et pt tt (.cons c cs) =>
      if c.end_time ≠ -1 then
        (n, .mk n bt now (pt + (now - c.end_time)) (tt + (now - c.end_time)) (.cons c cs))
      else if (Process.endSpan now c).2.end_time ≠ -1 then
        ((Process.endSpan now c).1,
          .mk n bt et pt (tt + (Process.endSpan now c).2.total_time)
            (.cons (Process.endSpan now c).2 cs))
      else
        ((Process.endSpan now c).1, .mk n bt et pt tt (.cons (Process.endSpan now c).2 cs))

/-- The root created by `DevBench.__init__`: `Process('root', None)` at clock
time `t0`. -/
def freshRoot (t0 : ℚ) : Process := Process.make "root" t0

/-- One call of the public `DevBench` surface: `enter_process` (delegating to
`root.begin`), `leave_process` (delegating to `root.end`), or a save/load
round-trip of the session snapshot (`savef` then `loadf`). -/
inductive Op where
  | enter (nm : String)
  | leave
  | saveload
deriving DecidableEq

/-- `DevBench.running_process()`: from the root, repeatedly move to the last
child while that last child is running; the node reached is the tail of the
active path. -/
def openTail : Process → Process
  | p@(.mk _ _ _ _ _ .nil) => p
  | p@(.mk _ _ _ _ _ (.cons c _)) =>
      if c.end_time = -1 then openTail c else p

/-- `DevBench.running_path()`: the dot-joined names from the root along the
"last child while running" walk. -/
def runningPathStr : Process → String
  | .mk n _ _ _ _ .nil => n
  | .mk n _ _ _ _ (.cons c _) =>
      if c.end_time = -1 then n ++ "." ++ runningPathStr c else n

/-- The nodes visited by the `running_path`/`running_process` walk, root
first. -/
def pathNodes : Process → List Process
  | p@(.mk _ _ _ _ _ .nil) => [p]
  | p@(.mk _ _ _ _ _ (.cons c _)) =>
      if c.end_time = -1 then p :: pathNodes c else [p]

/-! ## The `DevPrinter` shutdown counter

The printer thread's state that matters to the drain protocol is the single
integer `engaged_count` (initialised to `-1`), read and written under
`engaged_lock`; the file writes themselves are I/O.  `can_loop` both queries
and advances the counter, so we model it as a state transformer. -/

/-- `DevPrinter.__init__`: `self.engaged_count = -1`. -/
def printerInit : ℤ := -1

/-- `DevPrinter.terminate()`: `self.engaged_count = 2`, from any state. -/
def DevPrinter.terminate (_ : ℤ) : ℤ := 2

/-- `DevPrinter.can_loop()`: if the counter is `-1` answer `True`;
otherwise decrement it and answer whether it is still positive. -/
def DevPrinter.can_loop (s : ℤ) : Bool × ℤ :=
  if s = -1 then (true, s)
  else (decide (s - 1 > 0), s - 1)

/-- The counter after `n` queries of the untriggered printer. -/
def idleIter : ℕ → ℤ
  | 0 => printerInit
  | n + 1 => (DevPrinter.can_loop (idleIter n)).2

/-- How many flush iterations `DevPrinter.run`'s `while self.can_loop():`
loop still performs, starting from counter state `s`, within `fuel` queries. -/
def loopFlushes : ℤ → ℕ → ℕ
  | _, 0 => 0
  | s, f + 1 =>
      let r := DevPrinter.can_loop s
      if r.1 then loopFlushes r.2 f + 1 else 0

/-! ## The duration formatter `time_str` -/

/-- Python's `int()` applied to a float: truncation toward zero. -/
def pyInt (q : ℚ) : ℤ := if q < 0 then ⌈q⌉ else ⌊q⌋

/-- Renders `n / 100` with exactly two decimal places, `n ≥ 0`. -/
def fmt2i (n : ℕ) : String :=
  toString (n / 100) ++ "." ++
    (if n % 100 < 10 then "0" ++ toString (n % 100) else toString (n % 100))

/-- Python's `'%.2f' % q`: the value rounded to two decimal places.
(`%.2f` rounds to nearest; the tie-breaking of binary doubles is immaterial
for the exact decimal inputs considered here.) -/
def fmt2 (q : ℚ) : String :=
  let c : ℤ := round (q * 100)
  if c < 0 then "-" ++ fmt2i (-c).toNat else fmt2i c.toNat

/-- `time_str(time_s)` from `devbench.py`.  `sec_i = int(time_s)`; Python 2's
`/` on ints is floor division, written `Int.fdiv` here. -/
def time_str (time_s : ℚ) : String :=
  let sec_i : ℤ := pyInt time_s
  if sec_i ≥ 60 then
    let min_i : ℤ := sec_i.fdiv 60
    let time_s1 : ℚ := time_s - (min_i * 60 : ℤ)
    if min_i ≥ 60 then
      let hr_i : ℤ := min_i.fdiv 60
      let min_i1 : ℤ := min_i - hr_i * 60
      if hr_i ≥ 24 then
        let day_i : ℤ := hr_i.fdiv 24
        let hr_i1 : ℤ := hr_i - day_i * 24
        "[" ++ toString day_i ++ " d, " ++ toString hr_i1 ++ " h, " ++
          toString min_i1 ++ " m, " ++ fmt2 time_s1 ++ " s]"
      else
        "[" ++ toString hr_i ++ " h, " ++ toString min_i1 ++ " m, " ++
          fmt2 time_s1 ++ " s]"
    else
      "[" ++ toString min_i ++ " m, " ++ fmt2 time_s1 ++ " s]"
  else
    "[" ++ fmt2 time_s ++ " s]"

/-! ## Snapshot serialization

`ProcessEncoder.default` writes, per node, the fields `name`, `begin_time`,
`end_time`, `personal_time`, `total_time` and the encoded children (the
`parent` pointer is not persisted).  `json.load(..., object_hook =
Process._json_object_hook)` rebuilds the nodes bottom-up, rewiring each
child's `parent`, and forces `end_time = -1` (and `parent = None`) on every
node whose decoded `name` equals `'root'`.

`JTree`/`JList` is the JSON document; like `PList`, its child list is stored
most-recent-first (the document's textual order is the reverse; since
`serialize` and `deserialize` use the same convention, the encoded content is
identical). -/

mutual
inductive JTree where
  | node (name : String) (begin_time : ℚ) (end_time : ℚ)
         (personal_time : ℚ) (total_time : ℚ) (children : JList)
inductive JList where
  | nil
  | cons (c : JTree) (cs : JList)
end

mutual
/-- `ProcessEncoder.default`. -/
def serialize : Process → JTree
  | .mk n bt et pt tt cs => .node n bt et pt tt (serializeL cs)
def serializeL : PList → JList
  | .nil => .nil
  | .cons c cs => .cons (serialize c) (serializeL cs)
end

mutual
/-- `Process._json_object_hook`, applied bottom-up by `json.load`: copy every
persisted field, rewire the children's parent pointers, and if the node's
name is `'root'` force `end_time = -1` (and drop the parent). -/
def deserialize : JTree → Process
  | .node n bt et pt tt cs =>
      .mk n bt (if n = "root" then -1 else et) pt tt (deserializeL cs)
def deserializeL : JList → PList
  | .nil => .nil
  | .cons c cs => .cons (deserialize c) (deserializeL cs)
end

mutual
/-- What the snapshot round-trip actually does to a tree: every node whose
name is `'root'` — at any depth — is forced open; all other fields are kept. -/
def forceNamedRoot : Process → Process
  | .mk n bt et pt tt cs =>
      .mk n bt (if n = "root" then -1 else et) pt tt (forceNamedRootL cs)
def forceNamedRootL : PList → PList
  | .nil => .nil
  | .cons c cs => .cons (forceNamedRoot c) (forceNamedRootL cs)
end

/-- What the specification says the round-trip does: reproduce every field of
every non-root node exactly and force (only) the root open. -/
def rootForcedOpen : Process → Process
  | .mk n bt _ pt tt cs => .mk n bt (-1) pt tt cs

/-! ## Addressing nodes

A node is addressed by the list of *insertion* indices along the path from
the root: index `i` selects the `i`-th child ever appended.  Because children
are only ever appended, an existing node keeps its address for its whole
life.  In the most-recent-first storage the freshly appended head of
`PList.cons c cs` has insertion index `cs.length`. -/

mutual
/-- The node of `p` at insertion-index path `q` (root itself at `[]`). -/
def getN? : Process → List ℕ → Option Process
  | p, [] => some p
  | .mk _ _ _ _ _ cs, i :: q => getNL cs i q

/-- Select the child with insertion index `i`, then follow `q`. -/
def getNL : PList → ℕ → List ℕ → Option Process
  | .nil, _, _ => none
  | .cons c cs, i, q => if i = cs.length then getN? c q else getNL cs i q
end

/-- The node-local data of one span: every scalar field plus the length of
its child sequence. -/
structure Scal where
  name : String
  begin_time : ℚ
  end_time : ℚ
  personal_time : ℚ
  total_time : ℚ
  nChildren : ℕ
deriving DecidableEq

def scal (p : Process) : Scal :=
  ⟨p.name, p.begin_time, p.end_time, p.personal_time, p.total_time, p.children.length⟩

/-- The node-local data of the node at path `q`. -/
def scalAt (p : Process) (q : List ℕ) : Option Scal := (getN? p q).map scal

/-- The insertion-index path from the root to the active path's tail
(the node `running_process` returns, the one `begin`/`end` act on). -/
def tailPath : Process → List ℕ
  | .mk _ _ _ _ _ .nil => []
  | .mk _ _ _ _ _ (.cons c cs) =>
      if c.end_time = -1 then cs.length :: tailPath c else []

/-- A node's "previous marker": its own `begin_time` if it has no children,
else its last child's `end_time` (meaningful when that child has ended). -/
def marker : Process → ℚ
  | .mk _ bt _ _ _ .nil => bt
  | .mk _ _ _ _ _ (.cons c _) => c.end_time

/-- Membership in a child list. -/
def PMem (x : Process) : PList → Prop
  | .nil => False
  | .cons c cs => x = c ∨ PMem x cs

/-! ## Structural predicates used by the invariants -/

mutual
/-- Every node of the subtree has ended. -/
def allEnded : Process → Prop
  | .mk _ _ et _ _ cs => et ≠ -1 ∧ allEndedL cs
def allEndedL : PList → Prop
  | .nil => True
  | .cons c cs => allEnded c ∧ allEndedL cs
end

/-- Sum of `total_time` over the children that have ended. -/
def sumEndedT : PList → ℚ
  | .nil => 0
  | .cons c cs => (if c.end_time ≠ -1 then c.total_time else 0) + sumEndedT cs

mutual
/-- The per-node accounting equation, everywhere in the tree:
`total_time = personal_time + Σ total_time` over the ended children. -/
def eqnAll : Process → Prop
  | .mk _ _ _ pt tt cs => tt = pt + sumEndedT cs ∧ eqnAllL cs
def eqnAllL : PList → Prop
  | .nil => True
  | .cons c cs => eqnAll c ∧ eqnAllL cs
end

/-- The open nodes form a single chain from the (open) root along last
children: all non-last children are fully ended subtrees, and the last child
is either itself such a chain or a fully ended subtree. -/
def openChain : Process → Prop
  | .mk _ _ et _ _ .nil => et = -1
  | .mk _ _ et _ _ (.cons c cs) =>
      et = -1 ∧ allEndedL cs ∧
        (if c.end_time = -1 then openChain c else allEnded c)

mutual
/-- The number of open (not ended) nodes in the subtree. -/
def openCount : Process → ℕ
  | .mk _ _ et _ _ cs => (if et = -1 then 1 else 0) + openCountL cs
def openCountL : PList → ℕ
  | .nil => 0
  | .cons c cs => openCount c + openCountL cs
end

mutual
/-- Sum of `personal_time` over every node of the subtree. -/
def sumPersonal : Process → ℚ
  | .mk _ _ _ pt _ cs => pt + sumPersonalL cs
def sumPersonalL : PList → ℚ
  | .nil => 0
  | .cons c cs => sumPersonal c + sumPersonalL cs
end

mutual
/-- All accumulated times in the subtree are nonnegative. -/
def nonneg : Process → Prop
  | .mk _ _ _ pt tt cs => 0 ≤ pt ∧ 0 ≤ tt ∧ nonnegL cs
def nonnegL : PList → Prop
  | .nil => True
  | .cons c cs => nonneg c ∧ nonnegL cs
end

mutual
/-- Every timestamp recorded in the subtree is at most `t` (the current
clock): begin times, and end times where set. -/
def timesLe (t : ℚ) : Process → Prop
  | .mk _ bt et _ _ cs => bt ≤ t ∧ (et = -1 ∨ et ≤ t) ∧ timesLeL t cs
def timesLeL (t : ℚ) : PList → Prop
  | .nil => True
  | .cons c cs => timesLe t c ∧ timesLeL t cs
end

mutual
/-- No node of the subtree is named `"root"`. -/
def nameFree : Process → Prop
  | .mk n _ _ _ _ cs => n ≠ "root" ∧ nameFreeL cs
def nameFreeL : PList → Prop
  | .nil => True
  | .cons c cs => nameFree c ∧ nameFreeL cs
end

/-! ## Traces of the public surface -/

/-- One public call against the tree, at clock time `now`.  `enter_process`
raises iff `root.begin` does; `leave_process` never raises; a save/load
round-trip replaces the tree by `deserialize (serialize ·)`. -/
def step : Process → Op × ℚ → Option Process
  | p, (.enter nm, now) => Process.begin now nm p
  | p, (.leave, now) => some (Process.endSpan now p).2
  | p, (.saveload, _) => some (deserialize (serialize p))

/-- Run a list of public calls from a given tree. -/
def runTrace : Process → List (Op × ℚ) → Option Process
  | p, [] => some p
  | p, e :: tr =>
      match step p e with
      | some p1 => runTrace p1 tr
      | none => none

/-- "Never leave more times than entered", with `k` spans currently open
below the root: every `leave` must be matched by an earlier unmatched
`enter`. -/
def balB : ℕ → List (Op × ℚ) → Bool
  | _, [] => true
  | k, (.enter _, _) :: tr => balB (k + 1) tr
  | k, (.leave, _) :: tr => decide (0 < k) && balB (k - 1) tr
  | k, (.saveload, _) :: tr => balB k tr

/-- The number of open non-root spans after running a balanced trace that
started with `k` of them. -/
def balAfter : ℕ → List (Op × ℚ) → ℕ
  | k, [] => k
  | k, (.enter _, _) :: tr => balAfter (k + 1) tr
  | k, (.leave, _) :: tr => balAfter (k - 1) tr
  | k, (.saveload, _) :: tr => balAfter k tr

/-- The trace uses only `enter_process`/`leave_process` (no snapshot
round-trip). -/
def noLoadB : List (Op × ℚ) → Bool
  | [] => true
  | (.saveload, _) :: _ => false
  | _ :: tr => noLoadB tr

/-- No span is entered under the reserved name `"root"` (after the
case-folding `enter_process` applies). -/
def goodNamesB : List (Op × ℚ) → Bool
  | [] => true
  | (.enter nm, _) :: tr => decide (pyLower nm ≠ "root") && goodNamesB tr
  | _ :: tr => goodNamesB tr

/-- All clock readings of the trace are nonnegative (true of `time.time()`;
in particular none collides with the `-1` sentinel). -/
def timesOK : List (Op × ℚ) → Prop
  | [] => True
  | (_, now) :: tr => 0 ≤ now ∧ timesOK tr

/-- The clock readings are nondecreasing, starting from `t`. -/
def monoFrom (t : ℚ) : List (Op × ℚ) → Prop
  | [] => True
  | (_, now) :: tr => t ≤ now ∧ monoFrom now tr

/-! ## Claim C7: the shutdown drain counter -/

theorem can_loop_idle (n : ℕ) : idleIter n = printerInit := by
  induction n with
  | zero => rfl
  | succ n ih => rw [idleIter, ih]; rfl

theorem loopFlushes_after_terminate (s : ℤ) (f : ℕ) :
    loopFlushes (DevPrinter.terminate s) (f + 2) = 1 := by
  show loopFlushes 2 (f + 2) = 1
  rw [loopFlushes]
  norm_num [DevPrinter.can_loop, loopFlushes]

/-- C7: before the termination signal every query of `can_loop` returns
`True` and leaves the counter untouched (the loop runs unconditionally);
`terminate` arms the counter at `2`, after which `can_loop` answers `True`
exactly once more (counter `2 → 1`) and then `False` (counter `1 → 0`), so
the background loop performs precisely one additional flush iteration after
the signal and then stops. -/
theorem claim_C7 :
    (∀ n : ℕ, (DevPrinter.can_loop (idleIter n)).1 = true ∧ idleIter n = printerInit) ∧
    (∀ s : ℤ, DevPrinter.can_loop (DevPrinter.terminate s) = (true, 1)) ∧
    DevPrinter.can_loop 1 = (false, 0) ∧
    (∀ (s : ℤ) (f : ℕ), loopFlushes (DevPrinter.terminate s) (f + 2) = 1) := by
  refine ⟨fun n => ⟨?_, can_loop_idle n⟩, fun s => ?_, ?_, fun s f => loopFlushes_after_terminate s f⟩
  · rw [can_loop_idle n]; rfl
  · rfl
  · rfl

/-! ## Claim C9: the duration formatter -/

theorem pyInt_of_nonneg {q : ℚ} (h : 0 ≤ q) : pyInt q = ⌊q⌋ :=
  if_neg (not_lt.2 h)

/-- Python 2 floor division of a truncated nonnegative float by a positive
int computes the floor of the exact quotient. -/
theorem floor_fdiv (q : ℚ) (hq : 0 ≤ q) (n : ℕ) :
    Int.fdiv ⌊q⌋ (n : ℤ) = ⌊q / (n : ℚ)⌋ := by
  have h0 : (0:ℤ) ≤ ⌊q⌋ := Int.floor_nonneg.2 hq
  have h1 : ((⌊q⌋₊ : ℕ) : ℤ) = ⌊q⌋ := by
    rw [← Int.floor_toNat q, Int.toNat_of_nonneg h0]
  have h2 : ((⌊q⌋₊ / n : ℕ) : ℤ) = ⌊q / (n : ℚ)⌋ := by
    rw [← Nat.floor_div_nat q n, ← Int.floor_toNat (q / (n:ℚ)),
      Int.toNat_of_nonneg (Int.floor_nonneg.2 (by positivity))]
  rw [← h1, Int.fdiv_eq_ediv _ (by positivity), ← Int.natCast_div, h2]

theorem time_str_sec {q : ℚ} (h0 : 0 ≤ q) (h1 : q < 60) :
    time_str q = "[" ++ fmt2 q ++ " s]" := by
  have hlt : ¬ (60 ≤ ⌊q⌋) := by
    rw [not_le, Int.floor_lt]; push_cast; linarith
  simp only [time_str, pyInt_of_nonneg h0, ge_iff_le, if_neg hlt]

theorem time_str_min {q : ℚ} (h0 : 60 ≤ q) (h1 : q < 3600) :
    time_str q = "[" ++ toString ⌊q / 60⌋ ++ " m, " ++
      fmt2 (q - ((⌊q / 60⌋ * 60 : ℤ) : ℚ)) ++ " s]" := by
  have hq : (0:ℚ) ≤ q := le_trans (by norm_num) h0
  have hf : Int.fdiv ⌊q⌋ 60 = ⌊q / 60⌋ := by
    have := floor_fdiv q hq 60
    norm_num at this
    exact this
  have h60 : (60:ℤ) ≤ ⌊q⌋ := Int.le_floor.2 (by push_cast; linarith)
  have hlt : ¬ ((60:ℤ) ≤ ⌊q / 60⌋) := by
    rw [not_le, Int.floor_lt, div_lt_iff₀ (by norm_num : (0:ℚ) < 60)]
    push_cast; linarith
  simp only [time_str, pyInt_of_nonneg hq, hf, ge_iff_le, if_pos h60, if_neg hlt]

theorem time_str_hour {q : ℚ} (h0 : 3600 ≤ q) (h1 : q < 86400) :
    time_str q = "[" ++ toString ⌊q / 3600⌋ ++ " h, " ++
      toString (⌊q / 60⌋ - ⌊q / 3600⌋ * 60) ++ " m, " ++
      fmt2 (q - ((⌊q / 60⌋ * 60 : ℤ) : ℚ)) ++ " s]" := by
  have hq : (0:ℚ) ≤ q := le_trans (by norm_num) h0
  have hf : Int.fdiv ⌊q⌋ 60 = ⌊q / 60⌋ := by
    have := floor_fdiv q hq 60
    norm_num at this
    exact this
  have hf2 : Int.fdiv ⌊q / 60⌋ 60 = ⌊q / 3600⌋ := by
    have := floor_fdiv (q / 60) (by positivity) 60
    norm_num [div_div] at this
    exact this
  have h60 : (60:ℤ) ≤ ⌊q⌋ := Int.le_floor.2 (by push_cast; linarith)
  have h3600 : (60:ℤ) ≤ ⌊q / 60⌋ := Int.le_floor.2 (by
    rw [le_div_iff₀ (by norm_num : (0:ℚ) < 60)]
    push_cast; linarith)
  have hlt : ¬ ((24:ℤ) ≤ ⌊q / 3600⌋) := by
    rw [not_le, Int.floor_lt, div_lt_iff₀ (by norm_num : (0:ℚ) < 3600)]
    push_cast; linarith
  simp only [time_str, pyInt_of_nonneg hq, hf, hf2, ge_iff_le, if_pos h60,
    if_pos h3600, if_neg hlt]

theorem time_str_day {q : ℚ} (h0 : 86400 ≤ q) :
    time_str q = "[" ++ toString ⌊q / 86400⌋ ++ " d, " ++
      toString (⌊q / 3600⌋ - ⌊q / 86400⌋ * 24) ++ " h, " ++
      toString (⌊q / 60⌋ - ⌊q / 3600⌋ * 60) ++ " m, " ++
      fmt2 (q - ((⌊q / 60⌋ * 60 : ℤ) : ℚ)) ++ " s]" := by
  have hq : (0:ℚ) ≤ q := le_trans (by norm_num) h0
  have hf : Int.fdiv ⌊q⌋ 60 = ⌊q / 60⌋ := by
    have := floor_fdiv q hq 60
    norm_num at this
    exact this
  have hf2 : Int.fdiv ⌊q / 60⌋ 60 = ⌊q / 3600⌋ := by
    have := floor_fdiv (q / 60) (by positivity) 60
    norm_num [div_div] at this
    exact this
  have hf3 : Int.fdiv ⌊q / 3600⌋ 24 = ⌊q / 86400⌋ := by
    have := floor_fdiv (q / 3600) (by positivity) 24
    norm_num [div_div] at this
    exact this
  have h60 : (60:ℤ) ≤ ⌊q⌋ := Int.le_floor.2 (by push_cast; linarith)
  have h3600 : (60:ℤ) ≤ ⌊q / 60⌋ := Int.le_floor.2 (by
    rw [le_div_iff₀ (by norm_num : (0:ℚ) < 60)]
    push_cast; linarith)
  have h86400 : (24:ℤ) ≤ ⌊q / 3600⌋ := Int.le_floor.2 (by
    rw [le_div_iff₀ (by norm_num : (0:ℚ) < 3600)]
    push_cast; linarith)
  simp only [time_str, pyInt_of_nonneg hq, hf, hf2, hf3, ge_iff_le, if_pos h60,
    if_pos h3600, if_pos h86400]

/-- C9: the duration formatter produces the four specified test vectors, and
in general each unit is obtained by successive floor-division/remainder from
the largest applicable unit downward (minutes `⌊q/60⌋`, hours `⌊q/3600⌋`,
days `⌊q/86400⌋`, each reduced by the unit above), with the fractional
seconds kept to two decimal places by `fmt2`, and with no unit printed above
the smallest bracket needed. -/
theorem claim_C9 :
    time_str 45 = "[45.00 s]" ∧
    time_str 125 = "[2 m, 5.00 s]" ∧
    time_str 3725 = "[1 h, 2 m, 5.00 s]" ∧
    time_str 90005 = "[1 d, 1 h, 0 m, 5.00 s]" ∧
    (∀ q : ℚ, 0 ≤ q → q < 60 → time_str q = "[" ++ fmt2 q ++ " s]") ∧
    (∀ q : ℚ, 60 ≤ q → q < 3600 → time_str q =
      "[" ++ toString ⌊q / 60⌋ ++ " m, " ++ fmt2 (q - ((⌊q / 60⌋ * 60 : ℤ) : ℚ)) ++ " s]") ∧
    (∀ q : ℚ, 3600 ≤ q → q < 86400 → time_str q =
      "[" ++ toString ⌊q / 3600⌋ ++ " h, " ++ toString (⌊q / 60⌋ - ⌊q / 3600⌋ * 60) ++
        " m, " ++ fmt2 (q - ((⌊q / 60⌋ * 60 : ℤ) : ℚ)) ++ " s]") ∧
    (∀ q : ℚ, 86400 ≤ q → time_str q =
      "[" ++ toString ⌊q / 86400⌋ ++ " d, " ++ toString (⌊q / 3600⌋ - ⌊q / 86400⌋ * 24) ++
        " h, " ++ toString (⌊q / 60⌋ - ⌊q / 3600⌋ * 60) ++ " m, " ++
        fmt2 (q - ((⌊q / 60⌋ * 60 : ℤ) : ℚ)) ++ " s]") := by
  refine ⟨?_, ?_, ?_, ?_, fun q a b => time_str_sec a b, fun q a b => time_str_min a b,
    fun q a b => time_str_hour a b, fun q a => time_str_day a⟩
  · norm_num [time_str, pyInt, fmt2, fmt2i, round_eq]
    decide
  · have hf : Int.fdiv 125 60 = 2 := by decide
    norm_num [time_str, pyInt, fmt2, fmt2i, hf, round_eq]
    decide
  · have hf1 : Int.fdiv 3725 60 = 62 := by decide
    have hf2 : Int.fdiv 62 60 = 1 := by decide
    norm_num [time_str, pyInt, fmt2, fmt2i, hf1, hf2, round_eq]
    decide
  · have hf1 : Int.fdiv 90005 60 = 1500 := by decide
    have hf2 : Int.fdiv 1500 60 = 25 := by decide
    have hf3 : Int.fdiv 25 24 = 1 := by decide
    norm_num [time_str, pyInt, fmt2, fmt2i, hf1, hf2, hf3, round_eq]
    decide

/-- Witness: the minute-bracket clause of C9 applied at 200 seconds. -/
theorem claim_C9_witness :
    time_str 200 = "[" ++ toString ⌊(200:ℚ) / 60⌋ ++ " m, " ++
      fmt2 (200 - ((⌊(200:ℚ) / 60⌋ * 60 : ℤ) : ℚ)) ++ " s]" :=
  claim_C9.2.2.2.2.2.1 200 (by norm_num) (by norm_num)

/-! ## Basic facts about `begin` and `endSpan` -/

theorem begin_open {now : ℚ} {nm : String} :
    ∀ {p p1 : Process}, Process.begin now nm p = some p1 → p.end_time = -1 := by
  intro p p1 h
  match p with
  | .mk n bt et pt tt .nil =>
    rw [Process.begin] at h
    split_ifs at h with h1
    · push_neg at h1
      exact h1
  | .mk n bt et pt tt (.cons c cs) =>
    rw [Process.begin] at h
    split_ifs at h with h1
    · push_neg at h1
      exact h1
    · push_neg at h1
      exact h1

theorem begin_end_time {now : ℚ} {nm : String} :
    ∀ {p p1 : Process}, Process.begin now nm p = some p1 → p1.end_time = p.end_time := by
  intro p p1 h
  match p with
  | .mk n bt et pt tt .nil =>
    rw [Process.begin] at h
    split_ifs at h
    cases h
    rfl
  | .mk n bt et pt tt (.cons c cs) =>
    rw [Process.begin] at h
    split_ifs at h
    · cases h
      rfl
    · cases hc : Process.begin now nm c with
      | none => rw [hc] at h; cases h
      | some c1 => rw [hc] at h; cases h; rfl

theorem endSpan_name_et {now : ℚ} :
    ∀ p : Process, (Process.endSpan now p).2.name = p.name ∧
      (Process.endSpan now p).2.begin_time = p.begin_time := by
  intro p
  match p with
  | .mk n bt et pt tt .nil => exact ⟨rfl, rfl⟩
  | .mk n bt et pt tt (.cons c cs) =>
    rw [Process.endSpan]
    split_ifs <;> exact ⟨rfl, rfl⟩

/-! ## Claim C1: the per-node accounting equation is invariant -/

theorem eqnAll_make (nm : String) (now : ℚ) : eqnAll (Process.make nm now) := by
  simp [Process.make, eqnAll, eqnAllL, sumEndedT]

theorem eqnAll_begin {now : ℚ} {nm : String} :
    ∀ p p1, Process.begin now nm p = some p1 → eqnAll p → eqnAll p1
  | .mk n bt et pt tt .nil, p1 => by
    intro h he
    rw [Process.begin] at h
    split_ifs at h
    cases h
    rw [eqnAll] at he ⊢
    refine ⟨?_, eqnAll_make nm now, trivial⟩
    have h0 : sumEndedT (.cons (Process.make nm now) .nil) = 0 := by
      simp [sumEndedT, Process.make, Process.end_time]
    rw [h0]
    have := he.1
    rw [sumEndedT] at this
    linarith
  | .mk n bt et pt tt (.cons c cs), p1 => by
    intro h he
    rw [Process.begin] at h
    split_ifs at h with h1 h2
    · cases h
      rw [eqnAll] at he ⊢
      refine ⟨?_, eqnAll_make nm now, he.2⟩
      have h0 : sumEndedT (.cons (Process.make nm now) (.cons c cs)) =
          sumEndedT (.cons c cs) := by
        simp [sumEndedT, Process.make, Process.end_time]
      rw [h0]
      linarith [he.1]
    · cases hc : Process.begin now nm c with
      | none => rw [hc] at h; cases h
      | some c1 =>
        rw [hc] at h
        cases h
        rw [eqnAll] at he ⊢
        push_neg at h2
        have hc1 : c1.end_time = -1 := by rw [begin_end_time hc, h2]
        refine ⟨?_, ?_, he.2.2⟩
        · have h0 : sumEndedT (.cons c1 cs) = sumEndedT (.cons c cs) := by
            rw [sumEndedT, sumEndedT, if_neg (by simp [hc1]), if_neg (by simp [h2])]
          rw [h0]
          exact he.1
        · exact eqnAll_begin c c1 hc he.2.1

theorem eqnAll_endSpan {now : ℚ} :
    ∀ p, eqnAll p → eqnAll (Process.endSpan now p).2
  | .mk n bt et pt tt .nil => by
    intro he
    rw [Process.endSpan, eqnAll]
    rw [eqnAll] at he
    refine ⟨?_, trivial⟩
    have := he.1
    rw [sumEndedT] at this ⊢
    linarith
  | .mk n bt et pt tt (.cons c cs) => by
    intro he
    rw [eqnAll] at he
    rw [Process.endSpan]
    split_ifs with h1 h2 <;> dsimp only
    · rw [eqnAll]
      exact ⟨by linarith [he.1], he.2⟩
    · rw [eqnAll]
      push_neg at h1
      refine ⟨?_, eqnAll_endSpan c he.2.1, he.2.2⟩
      have h0 : sumEndedT (.cons (Process.endSpan now c).2 cs) =
          (Process.endSpan now c).2.total_time + sumEndedT cs := by
        rw [sumEndedT, if_pos h2]
      rw [h0]
      have := he.1
      rw [sumEndedT, if_neg (by simp [h1])] at this
      linarith
    · rw [eqnAll]
      push_neg at h1 h2
      refine ⟨?_, eqnAll_endSpan c he.2.1, he.2.2⟩
      have h0 : sumEndedT (.cons (Process.endSpan now c).2 cs) = sumEndedT cs := by
        rw [sumEndedT, if_neg (by simp [h2])]
        ring
      rw [h0]
      have := he.1
      rw [sumEndedT, if_neg (by simp [h1])] at this
      linarith

theorem eqnAll_run : ∀ (tr : List (Op × ℚ)) (p u : Process), noLoadB tr = true →
    eqnAll p → runTrace p tr = some u → eqnAll u := by
  intro tr
  induction tr with
  | nil =>
    intro p u _ he hrun
    rw [runTrace] at hrun
    cases hrun
    exact he
  | cons e tr ih =>
    intro p u hnl he hrun
    obtain ⟨op, now⟩ := e
    match op with
    | .enter nm =>
      rw [runTrace] at hrun
      simp only [noLoadB] at hnl
      cases hb : Process.begin now nm p with
      | none => rw [step, hb] at hrun; cases hrun
      | some p1 =>
        rw [step, hb] at hrun
        exact ih p1 u hnl (eqnAll_begin p p1 hb he) hrun
    | .leave =>
      rw [runTrace] at hrun
      simp only [noLoadB] at hnl
      rw [step] at hrun
      exact ih _ u hnl (eqnAll_endSpan p he) hrun
    | .saveload => simp [noLoadB] at hnl

/-- C1: in every state reachable from a fresh tree by `enterSpan`/`leaveSpan`
calls that never leave more times than they enter, every node of the tree
satisfies `totalTime = personalTime + Σ totalTime` over exactly its ended
children (running children contribute nothing). -/
theorem claim_C1 (t0 : ℚ) (tr : List (Op × ℚ)) (u : Process)
    (hbal : balB 0 tr = true) (hnl : noLoadB tr = true)
    (hrun : runTrace (freshRoot t0) tr = some u) : eqnAll u :=
  eqnAll_run tr (freshRoot t0) u hnl (eqnAll_make "root" t0) hrun

/-- Witness for C1: the tree reached by `enter "a"` at time 1 and `leave` at
time 2, from a root created at time 0, satisfies the accounting equation. -/
theorem claim_C1_witness :
    eqnAll (Process.mk "root" 0 (-1) 1 2 (.cons (.mk "a" 1 2 1 1 .nil) .nil)) :=
  claim_C1 0 [(.enter "a", 1), (.leave, 2)] _ (by decide) (by decide)
    (by norm_num [runTrace, step, Process.begin, Process.endSpan, Process.make,
          Process.end_time, Process.total_time, freshRoot, pyLower, lowerChar]
        decide)

/-! ## Claim C4: the root's total against the personal-time sum -/

mutual
theorem timesLe_mono {t t1 : ℚ} (h : t ≤ t1) :
    ∀ p, timesLe t p → timesLe t1 p
  | .mk n bt et pt tt cs => by
    intro hp
    rw [timesLe] at hp ⊢
    refine ⟨le_trans hp.1 h, ?_, timesLeL_mono h cs hp.2.2⟩
    rcases hp.2.1 with h0 | h0
    · exact Or.inl h0
    · exact Or.inr (le_trans h0 h)
theorem timesLeL_mono {t t1 : ℚ} (h : t ≤ t1) :
    ∀ cs, timesLeL t cs → timesLeL t1 cs
  | .nil => by intro _; trivial
  | .cons c cs => by
    intro hp
    rw [timesLeL] at hp ⊢
    exact ⟨timesLe_mono h c hp.1, timesLeL_mono h cs hp.2⟩
end

theorem make_nt {nm : String} {now : ℚ} :
    timesLe now (Process.make nm now) ∧ nonneg (Process.make nm now) := by
  refine ⟨?_, ?_⟩ <;> simp [Process.make, timesLe, timesLeL, nonneg, nonnegL]

theorem timesLe_et {t : ℚ} {c : Process} (h : timesLe t c) :
    c.end_time = -1 ∨ c.end_time ≤ t := by
  match c with
  | .mk n bt et pt tt cs =>
    rw [timesLe] at h
    exact h.2.1

theorem timesLe_bt {t : ℚ} {c : Process} (h : timesLe t c) : c.begin_time ≤ t := by
  match c with
  | .mk n bt et pt tt cs =>
    rw [timesLe] at h
    exact h.1

theorem nonneg_fields {c : Process} (h : nonneg c) :
    0 ≤ c.personal_time ∧ 0 ≤ c.total_time := by
  match c with
  | .mk n bt et pt tt cs =>
    rw [nonneg] at h
    exact ⟨h.1, h.2.1⟩

theorem begin_nt {now t : ℚ} {nm : String} (hts : t ≤ now) :
    ∀ p p1, Process.begin now nm p = some p1 → timesLe t p → nonneg p →
      timesLe now p1 ∧ nonneg p1
  | .mk n bt et pt tt .nil, p1 => by
    intro h hl hn
    rw [Process.begin] at h
    split_ifs at h
    cases h
    rw [timesLe] at hl ⊢
    rw [nonneg] at hn ⊢
    refine ⟨⟨le_trans hl.1 hts, ?_, ?_⟩, ?_, ?_, ?_⟩
    · rcases hl.2.1 with h0 | h0
      · exact Or.inl h0
      · exact Or.inr (le_trans h0 hts)
    · rw [timesLeL]
      exact ⟨make_nt.1, trivial⟩
    · have := hl.1; linarith [hn.1]
    · have := hl.1; linarith [hn.2.1]
    · rw [nonnegL]
      exact ⟨make_nt.2, trivial⟩
  | .mk n bt et pt tt (.cons c cs), p1 => by
    intro h hl hn
    rw [Process.begin] at h
    rw [timesLe] at hl
    rw [timesLeL] at hl
    rw [nonneg] at hn
    rw [nonnegL] at hn
    split_ifs at h with h1 h2
    · cases h
      have hce : c.end_time ≤ t := by
        rcases timesLe_et hl.2.2.1 with h0 | h0
        · exact absurd h0 h2
        · exact h0
      rw [timesLe, nonneg]
      refine ⟨⟨le_trans hl.1 hts, ?_, ?_⟩, by linarith [hn.1], by linarith [hn.2.1], ?_⟩
      · rcases hl.2.1 with h0 | h0
        · exact Or.inl h0
        · exact Or.inr (le_trans h0 hts)
      · rw [timesLeL]
        exact ⟨make_nt.1, timesLeL_mono hts _ hl.2.2⟩
      · rw [nonnegL]
        exact ⟨make_nt.2, hn.2.2⟩
    · cases hc : Process.begin now nm c with
      | none => rw [hc] at h; cases h
      | some c1 =>
        rw [hc] at h
        cases h
        have hrec := begin_nt hts c c1 hc hl.2.2.1 hn.2.2.1
        rw [timesLe, nonneg]
        refine ⟨⟨le_trans hl.1 hts, ?_, ?_⟩, hn.1, hn.2.1, ?_⟩
        · rcases hl.2.1 with h0 | h0
          · exact Or.inl h0
          · exact Or.inr (le_trans h0 hts)
        · rw [timesLeL]
          exact ⟨hrec.1, timesLeL_mono hts _ hl.2.2.2⟩
        · rw [nonnegL]
          exact ⟨hrec.2, hn.2.2.2⟩

theorem endSpan_nt {now t : ℚ} (hts : t ≤ now) :
    ∀ p, timesLe t p → nonneg p →
      timesLe now (Process.endSpan now p).2 ∧ nonneg (Process.endSpan now p).2
  | .mk n bt et pt tt .nil => by
    intro hl hn
    rw [timesLe] at hl
    rw [nonneg] at hn
    rw [Process.endSpan]
    rw [timesLe, nonneg]
    have := hl.1
    refine ⟨⟨le_trans hl.1 hts, Or.inr le_rfl, trivial⟩,
      by linarith [hn.1], by linarith [hn.2.1], trivial⟩
  | .mk n bt et pt tt (.cons c cs) => by
    intro hl hn
    rw [timesLe] at hl
    rw [timesLeL] at hl
    rw [nonneg] at hn
    rw [nonnegL] at hn
    rw [Process.endSpan]
    split_ifs with h1 h2 <;> dsimp only
    · have hce : c.end_time ≤ t := by
        rcases timesLe_et hl.2.2.1 with h0 | h0
        · exact absurd h0 h1
        · exact h0
      rw [timesLe, nonneg]
      refine ⟨⟨le_trans hl.1 hts, Or.inr le_rfl, ?_⟩,
        by linarith [hn.1], by linarith [hn.2.1], ?_⟩
      · rw [timesLeL]
        exact ⟨timesLe_mono hts c hl.2.2.1, timesLeL_mono hts cs hl.2.2.2⟩
      · rw [nonnegL]
        exact ⟨hn.2.2.1, hn.2.2.2⟩
    · have hrec := endSpan_nt hts c hl.2.2.1 hn.2.2.1
      rw [timesLe, nonneg]
      have hrn := (nonneg_fields hrec.2).2
      refine ⟨⟨le_trans hl.1 hts, ?_, ?_⟩, hn.1, by linarith [hn.2.1, hrn], ?_⟩
      · rcases hl.2.1 with h0 | h0
        · exact Or.inl h0
        · exact Or.inr (le_trans h0 hts)
      · rw [timesLeL]
        exact ⟨hrec.1, timesLeL_mono hts cs hl.2.2.2⟩
      · rw [nonnegL]
        exact ⟨hrec.2, hn.2.2.2⟩
    · have hrec := endSpan_nt hts c hl.2.2.1 hn.2.2.1
      rw [timesLe, nonneg]
      refine ⟨⟨le_trans hl.1 hts, ?_, ?_⟩, hn.1, hn.2.1, ?_⟩
      · rcases hl.2.1 with h0 | h0
        · exact Or.inl h0
        · exact Or.inr (le_trans h0 hts)
      · rw [timesLeL]
        exact ⟨hrec.1, timesLeL_mono hts cs hl.2.2.2⟩
      · rw [nonnegL]
        exact ⟨hrec.2, hn.2.2.2⟩

mutual
theorem sumPersonal_nonneg : ∀ p : Process, nonneg p → 0 ≤ sumPersonal p
  | .mk n bt et pt tt cs => by
    intro h
    rw [nonneg] at h
    rw [sumPersonal]
    have := sumPersonalL_nonneg cs h.2.2
    linarith [h.1]
theorem sumPersonalL_nonneg : ∀ cs : PList, nonnegL cs → 0 ≤ sumPersonalL cs
  | .nil => by intro _; rw [sumPersonalL]
  | .cons c cs => by
    intro h
    rw [nonnegL] at h
    rw [sumPersonalL]
    have h1 := sumPersonal_nonneg c h.1
    have h2 := sumPersonalL_nonneg cs h.2
    linarith
end

mutual
/-- Under the accounting equation and nonnegativity, a node's total time is
bounded by the sum of the personal times over its whole subtree: running
descendants have accumulated personal time that has not yet been propagated
into any ancestor's total. -/
theorem total_le_sumPersonal : ∀ p : Process, eqnAll p → nonneg p →
    p.total_time ≤ sumPersonal p
  | .mk n bt et pt tt cs => by
    intro he hn
    rw [eqnAll] at he
    rw [nonneg] at hn
    rw [Process.total_time, sumPersonal]
    have := sumEndedT_le_sumPersonalL cs he.2 hn.2.2
    linarith [he.1]
theorem sumEndedT_le_sumPersonalL : ∀ cs : PList, eqnAllL cs → nonnegL cs →
    sumEndedT cs ≤ sumPersonalL cs
  | .nil => by intro _ _; rw [sumEndedT, sumPersonalL]
  | .cons c cs => by
    intro he hn
    rw [eqnAllL] at he
    rw [nonnegL] at hn
    rw [sumEndedT, sumPersonalL]
    have h2 := sumEndedT_le_sumPersonalL cs he.2 hn.2
    split_ifs with h0
    · have h1 := total_le_sumPersonal c he.1 hn.1
      linarith
    · have h1 := sumPersonal_nonneg c hn.1
      linarith
end

theorem inv4_run : ∀ (tr : List (Op × ℚ)) (t : ℚ) (p u : Process),
    noLoadB tr = true → monoFrom t tr → timesLe t p → nonneg p →
    runTrace p tr = some u → nonneg u := by
  intro tr
  induction tr with
  | nil =>
    intro t p u _ _ _ hn hrun
    rw [runTrace] at hrun
    cases hrun
    exact hn
  | cons e tr ih =>
    intro t p u hnl hm hl hn hrun
    obtain ⟨op, now⟩ := e
    rw [monoFrom] at hm
    match op with
    | .enter nm =>
      rw [runTrace] at hrun
      simp only [noLoadB] at hnl
      cases hb : Process.begin now nm p with
      | none => rw [step, hb] at hrun; cases hrun
      | some p1 =>
        rw [step, hb] at hrun
        have hp := begin_nt hm.1 p p1 hb hl hn
        exact ih now p1 u hnl hm.2 hp.1 hp.2 hrun
    | .leave =>
      rw [runTrace] at hrun
      simp only [noLoadB] at hnl
      rw [step] at hrun
      have hp := endSpan_nt hm.1 p hl hn
      exact ih now _ u hnl hm.2 hp.1 hp.2 hrun
    | .saveload => simp [noLoadB] at hnl

/-- C4 as amended: for `enterSpan`/`leaveSpan` traces that never leave more
times than they enter and whose clock readings are nondecreasing, the root's
`totalTime` is at most (not at least) the sum of `personalTime` over all
nodes of the tree: personal time accumulated by still-open descendants is not
yet reflected in the root's total. -/
theorem claim_C4_amended (t0 : ℚ) (tr : List (Op × ℚ)) (u : Process)
    (hbal : balB 0 tr = true) (hnl : noLoadB tr = true)
    (hmono : monoFrom t0 tr)
    (hrun : runTrace (freshRoot t0) tr = some u) :
    u.total_time ≤ sumPersonal u := by
  have hn : nonneg u := by
    refine inv4_run tr t0 (freshRoot t0) u hnl hmono ?_ ?_ hrun
    · simp [freshRoot, Process.make, timesLe, timesLeL]
    · simp [freshRoot, Process.make, nonneg, nonnegL]
  have he : eqnAll u := eqnAll_run tr (freshRoot t0) u hnl (eqnAll_make "root" t0) hrun
  exact total_le_sumPersonal u he hn

/-- Counterexample to C4 as stated: after `enter "a"` at time 1 and
`enter "b"` at time 2 from a root created at time 0 — a sequence that never
leaves more than it enters, with a monotone clock — the root's `totalTime`
is 1 while the personal times over the tree sum to 2, so
`totalTime(root) ≥ Σ personalTime` fails. -/
theorem claim_C4_counterexample :
    balB 0 [(Op.enter "a", 1), (Op.enter "b", 2)] = true ∧
    noLoadB [(Op.enter "a", 1), (Op.enter "b", 2)] = true ∧
    monoFrom 0 [(Op.enter "a", 1), (Op.enter "b", 2)] ∧
    ∃ u, runTrace (freshRoot 0) [(Op.enter "a", 1), (Op.enter "b", 2)] = some u ∧
      ¬ sumPersonal u ≤ u.total_time := by
  refine ⟨by decide, by decide, ⟨by norm_num, by norm_num, trivial⟩,
    Process.mk "root" 0 (-1) 1 1
      (.cons (.mk "a" 1 (-1) 1 1 (.cons (.mk "b" 2 (-1) 0 0 .nil) .nil)) .nil), ?_, ?_⟩
  · norm_num [runTrace, step, Process.begin, Process.endSpan, Process.make,
      Process.end_time, Process.total_time, freshRoot, pyLower, lowerChar]
    decide
  · norm_num [sumPersonal, sumPersonalL, Process.total_time]

/-- Witness for the amended C4 at a concrete balanced, monotone trace. -/
theorem claim_C4_amended_witness :
    (Process.mk "root" 0 (-1) 1 2 (.cons (.mk "a" 1 2 1 1 .nil) .nil)).total_time ≤
      sumPersonal (Process.mk "root" 0 (-1) 1 2 (.cons (.mk "a" 1 2 1 1 .nil) .nil)) :=
  claim_C4_amended 0 [(.enter "a", 1), (.leave, 2)] _ (by decide) (by decide)
    (⟨by norm_num, by norm_num, trivial⟩)
    (by norm_num [runTrace, step, Process.begin, Process.endSpan, Process.make,
          Process.end_time, Process.total_time, freshRoot, pyLower, lowerChar]
        decide)

/-! ## Claim C8: `begin` never meets its ended-guard through the public
surface -/

/-- The recursive routing of `begin` only ever delegates to a running last
child, so starting from a non-ended node the "already ended" branch is
unreachable and `begin` always succeeds. -/
theorem begin_isSome (now : ℚ) (nm : String) :
    ∀ p : Process, p.end_time = -1 → (Process.begin now nm p).isSome
  | .mk n bt et pt tt .nil => by
    intro h
    rw [Process.end_time] at h
    rw [Process.begin, if_neg (by simp [h])]
    rfl
  | .mk n bt et pt tt (.cons c cs) => by
    intro h
    rw [Process.end_time] at h
    rw [Process.begin, if_neg (by simp [h])]
    split_ifs with h1
    · rfl
    · push_neg at h1
      have := begin_isSome now nm c h1
      cases hb : Process.begin now nm c with
      | none => rw [hb] at this; cases this
      | some c1 => rfl

/-- C8: in every state reachable through the public `enterSpan`/`leaveSpan`
surface whose root has not ended, `enterSpan` never raises the
"already-ended" protocol-violation error (modelled as `begin` returning
`none`): the routing only ever invokes `begin` on nodes with unset
`endTime`. -/
theorem claim_C8 (t0 : ℚ) (tr : List (Op × ℚ)) (u : Process) (now : ℚ) (nm : String)
    (hnl : noLoadB tr = true)
    (hrun : runTrace (freshRoot t0) tr = some u)
    (hopen : u.end_time = -1) :
    (Process.begin now nm u).isSome :=
  begin_isSome now nm u hopen

/-- Witness for C8: after `enter "a"` at time 1 the root is open and a
further `enterSpan` succeeds. -/
theorem claim_C8_witness :
    (Process.begin 2 "b"
      (Process.mk "root" 0 (-1) 1 1 (.cons (.mk "a" 1 (-1) 0 0 .nil) .nil))).isSome :=
  claim_C8 0 [(.enter "a", 1)] _ 2 "b" (by decide)
    (by norm_num [runTrace, step, Process.begin, Process.make,
          Process.end_time, freshRoot, pyLower, lowerChar]
        decide)
    (by rfl)

/-! ## Claim C2: the snapshot round-trip -/

mutual
theorem roundtrip : ∀ p : Process, deserialize (serialize p) = forceNamedRoot p
  | .mk n bt et pt tt cs => by
    rw [serialize, deserialize, forceNamedRoot, roundtripL cs]
theorem roundtripL : ∀ cs : PList, deserializeL (serializeL cs) = forceNamedRootL cs
  | .nil => by rw [serializeL, deserializeL, forceNamedRootL]
  | .cons c cs => by
    rw [serializeL, deserializeL, forceNamedRootL, roundtrip c, roundtripL cs]
end

/-- C2 as amended: deserializing the serialization of any span tree
reproduces every field of every node *not named* `"root"` exactly and forces
every node named `"root"` — the root itself, but also any span the user
entered under the reserved name — to the non-ended state (its other fields
kept); equivalently, the round-trip is exactly `forceNamedRoot`. -/
theorem claim_C2_amended (p : Process) :
    deserialize (serialize p) = forceNamedRoot p :=
  roundtrip p

/-- Counterexample to C2 as stated: the tree reached through the public API
by `enter "root"` at time 1 and `leave` at time 2 contains an *ended*
non-root node named `"root"`; the deserialization hook forces that node open
(its `endTime` becomes the sentinel again), so the round-trip does not
reproduce every field of every non-root node — it differs from merely
forcing the root open. -/
theorem claim_C2_counterexample :
    runTrace (freshRoot 0) [(Op.enter "root", 1), (Op.leave, 2)] =
      some (Process.mk "root" 0 (-1) 1 2 (.cons (.mk "root" 1 2 1 1 .nil) .nil)) ∧
    deserialize (serialize
        (Process.mk "root" 0 (-1) 1 2 (.cons (.mk "root" 1 2 1 1 .nil) .nil))) ≠
      rootForcedOpen
        (Process.mk "root" 0 (-1) 1 2 (.cons (.mk "root" 1 2 1 1 .nil) .nil)) := by
  constructor
  · norm_num [runTrace, step, Process.begin, Process.endSpan, Process.make,
      Process.end_time, Process.total_time, freshRoot, pyLower, lowerChar]
    decide
  · intro h
    have h2 := congrArg (fun p => match p with
      | Process.mk _ _ _ _ _ (.cons c _) => c.end_time
      | _ => (0:ℚ)) h
    simp only [serialize, serializeL, deserialize, deserializeL, rootForcedOpen] at h2
    norm_num [Process.end_time] at h2

/-! ## Claims C5 and C3: the active-path invariant through traces -/

theorem openChain_et {p : Process} (h : openChain p) : p.end_time = -1 := by
  match p with
  | .mk n bt et pt tt .nil => rw [openChain] at h; exact h
  | .mk n bt et pt tt (.cons c cs) => rw [openChain] at h; exact h.1

theorem allEnded_et {p : Process} (h : allEnded p) : p.end_time ≠ -1 := by
  match p with
  | .mk n bt et pt tt cs => rw [allEnded] at h; exact h.1

mutual
theorem allEnded_count : ∀ p : Process, allEnded p → openCount p = 0
  | .mk n bt et pt tt cs => by
    intro h
    rw [allEnded] at h
    rw [openCount, if_neg h.1, allEndedL_count cs h.2]
theorem allEndedL_count : ∀ cs : PList, allEndedL cs → openCountL cs = 0
  | .nil => by intro _; rw [openCountL]
  | .cons c cs => by
    intro h
    rw [allEndedL] at h
    rw [openCountL, allEnded_count c h.1, allEndedL_count cs h.2]
end

/-- A node whose last child is still running. -/
def hasOpenChild : Process → Prop
  | .mk _ _ _ _ _ .nil => False
  | .mk _ _ _ _ _ (.cons c _) => c.end_time = -1

theorem openChain_tail_count : ∀ p : Process, openChain p → ¬ hasOpenChild p →
    openCount p = 1
  | .mk n bt et pt tt .nil => by
    intro h _
    rw [openChain] at h
    rw [openCount, if_pos h, openCountL]
  | .mk n bt et pt tt (.cons c cs) => by
    intro h hoc
    rw [openChain] at h
    rw [hasOpenChild] at hoc
    rw [if_neg hoc] at h
    rw [openCount, if_pos h.1, openCountL, allEnded_count c h.2.2,
      allEndedL_count cs h.2.1]

theorem openChain_two_openChild {p : Process} (h : openChain p)
    (h2 : 2 ≤ openCount p) : hasOpenChild p := by
  by_contra hoc
  rw [openChain_tail_count p h hoc] at h2
  norm_num at h2

theorem chain_begin {now : ℚ} {nm : String} :
    ∀ p p1, Process.begin now nm p = some p1 → openChain p → openChain p1
  | .mk n bt et pt tt .nil, p1 => by
    intro h hc
    rw [openChain] at hc
    rw [Process.begin] at h
    split_ifs at h
    cases h
    rw [openChain, if_pos (by simp [Process.make, Process.end_time])]
    refine ⟨hc, trivial, ?_⟩
    rw [Process.make, openChain]
  | .mk n bt et pt tt (.cons c cs), p1 => by
    intro h hc
    rw [openChain] at hc
    rw [Process.begin] at h
    split_ifs at h with h1 h2
    · cases h
      rw [if_neg h2] at hc
      rw [openChain, if_pos (by simp [Process.make, Process.end_time])]
      refine ⟨hc.1, ?_, ?_⟩
      · rw [allEndedL]
        exact ⟨hc.2.2, hc.2.1⟩
      · rw [Process.make, openChain]
    · push_neg at h2
      rw [if_pos h2] at hc
      cases hb : Process.begin now nm c with
      | none => rw [hb] at h; cases h
      | some c1 =>
        rw [hb] at h
        cases h
        have hc1 : c1.end_time = -1 := by rw [begin_end_time hb, h2]
        rw [openChain, if_pos hc1]
        exact ⟨hc.1, hc.2.1, chain_begin c c1 hb hc.2.2⟩

theorem count_begin {now : ℚ} {nm : String} :
    ∀ p p1, Process.begin now nm p = some p1 → openCount p1 = openCount p + 1
  | .mk n bt et pt tt .nil, p1 => by
    intro h
    rw [Process.begin] at h
    split_ifs at h with h1
    cases h
    push_neg at h1
    rw [openCount, openCount, if_pos h1, openCountL, openCountL,
      Process.make, openCount, if_pos rfl, openCountL]
  | .mk n bt et pt tt (.cons c cs), p1 => by
    intro h
    rw [Process.begin] at h
    split_ifs at h with h1 h2
    · cases h
      push_neg at h1
      rw [openCount, openCount, if_pos h1, openCountL,
        Process.make, openCount, if_pos rfl, openCountL]
      ring
    · cases hb : Process.begin now nm c with
      | none => rw [hb] at h; cases h
      | some c1 =>
        rw [hb] at h
        cases h
        push_neg at h1
        rw [openCount, openCount, if_pos h1, openCountL, openCountL,
          count_begin c c1 hb]
        ring

theorem endSpan_tail_allEnded {now : ℚ} (hnow : (0:ℚ) ≤ now) :
    ∀ p, openChain p → ¬ hasOpenChild p →
      allEnded (Process.endSpan now p).2 ∧ openCount (Process.endSpan now p).2 = 0 := by
  have hne : now ≠ -1 := by intro h; rw [h] at hnow; norm_num at hnow
  intro p hc hoc
  match p with
  | .mk n bt et pt tt .nil =>
    rw [Process.endSpan]
    constructor
    · rw [allEnded]
      exact ⟨by simpa [Process.end_time] using hne, trivial⟩
    · rw [openCount, if_neg hne, openCountL]
  | .mk n bt et pt tt (.cons c cs) =>
    rw [hasOpenChild] at hoc
    rw [openChain, if_neg hoc] at hc
    rw [Process.endSpan, if_pos hoc]
    constructor
    · rw [allEnded]
      refine ⟨by simpa [Process.end_time] using hne, ?_⟩
      rw [allEndedL]
      exact ⟨hc.2.2, hc.2.1⟩
    · rw [openCount, if_neg hne, openCountL, allEnded_count c hc.2.2,
        allEndedL_count cs hc.2.1]

theorem chain_endSpan {now : ℚ} (hnow : (0:ℚ) ≤ now) :
    ∀ p, openChain p → hasOpenChild p →
      openChain (Process.endSpan now p).2 ∧
      openCount (Process.endSpan now p).2 + 1 = openCount p
  | .mk n bt et pt tt .nil => by
    intro _ hoc
    rw [hasOpenChild] at hoc
    exact hoc.elim
  | .mk n bt et pt tt (.cons c cs) => by
    intro hc hoc
    rw [hasOpenChild] at hoc
    rw [openChain, if_pos hoc] at hc
    rw [Process.endSpan, if_neg (by simp [hoc])]
    by_cases hoc2 : hasOpenChild c
    · have ih := chain_endSpan hnow c hc.2.2 hoc2
      have hopen := openChain_et ih.1
      rw [if_neg (by simp [hopen])]
      dsimp only
      constructor
      · rw [openChain, if_pos hopen]
        exact ⟨hc.1, hc.2.1, ih.1⟩
      · rw [openCount, openCount, if_pos hc.1, openCountL, openCountL]
        omega
    · have ht := endSpan_tail_allEnded hnow c hc.2.2 hoc2
      have hteq := openChain_tail_count c hc.2.2 hoc2
      have hend := allEnded_et ht.1
      rw [if_pos hend]
      dsimp only
      constructor
      · rw [openChain, if_neg hend]
        exact ⟨hc.1, hc.2.1, ht.1⟩
      · rw [openCount, openCount, if_pos hc.1, openCountL, openCountL, ht.2, hteq]
        ring

theorem begin_name {now : ℚ} {nm : String} :
    ∀ {p p1 : Process}, Process.begin now nm p = some p1 → p1.name = p.name := by
  intro p p1 h
  match p with
  | .mk n bt et pt tt .nil =>
    rw [Process.begin] at h
    split_ifs at h
    cases h
    rfl
  | .mk n bt et pt tt (.cons c cs) =>
    rw [Process.begin] at h
    split_ifs at h
    · cases h
      rfl
    · cases hc : Process.begin now nm c with
      | none => rw [hc] at h; cases h
      | some c1 => rw [hc] at h; cases h; rfl

theorem nameFree_intro {p : Process} (h1 : p.name ≠ "root")
    (h2 : nameFreeL p.children) : nameFree p := by
  match p with
  | .mk n bt et pt tt cs =>
    rw [nameFree]
    exact ⟨h1, h2⟩

theorem nameFree_name {p : Process} (h : nameFree p) : p.name ≠ "root" := by
  match p with
  | .mk n bt et pt tt cs => rw [nameFree] at h; exact h.1

theorem nameFree_children {p : Process} (h : nameFree p) : nameFreeL p.children := by
  match p with
  | .mk n bt et pt tt cs => rw [nameFree] at h; exact h.2

theorem nameFree_make {nm : String} {now : ℚ} (hnm : pyLower nm ≠ "root") :
    nameFree (Process.make nm now) := by
  rw [Process.make, nameFree]
  exact ⟨hnm, trivial⟩

theorem nameFreeL_begin {now : ℚ} {nm : String} (hnm : pyLower nm ≠ "root") :
    ∀ p p1, Process.begin now nm p = some p1 →
      nameFreeL p.children → nameFreeL p1.children
  | .mk n bt et pt tt .nil, p1 => by
    intro h hf
    rw [Process.begin] at h
    split_ifs at h
    cases h
    rw [Process.children, nameFreeL]
    exact ⟨nameFree_make hnm, trivial⟩
  | .mk n bt et pt tt (.cons c cs), p1 => by
    intro h hf
    rw [Process.children] at hf
    rw [Process.begin] at h
    split_ifs at h
    · cases h
      rw [Process.children, nameFreeL]
      exact ⟨nameFree_make hnm, hf⟩
    · cases hb : Process.begin now nm c with
      | none => rw [hb] at h; cases h
      | some c1 =>
        rw [hb] at h
        cases h
        rw [nameFreeL] at hf
        rw [Process.children, nameFreeL]
        refine ⟨?_, hf.2⟩
        refine nameFree_intro ?_ ?_
        · rw [begin_name hb]
          exact nameFree_name hf.1
        · exact nameFreeL_begin hnm c c1 hb (nameFree_children hf.1)

theorem nameFreeL_endSpan {now : ℚ} :
    ∀ p, nameFreeL p.children → nameFreeL (Process.endSpan now p).2.children
  | .mk n bt et pt tt .nil => by
    intro hf
    rw [Process.endSpan, Process.children]
    trivial
  | .mk n bt et pt tt (.cons c cs) => by
    intro hf
    rw [Process.children, nameFreeL] at hf
    rw [Process.endSpan]
    split_ifs <;> dsimp only
    · rw [Process.children, nameFreeL]
      exact hf
    · rw [Process.children, nameFreeL]
      refine ⟨?_, hf.2⟩
      refine nameFree_intro ?_ ?_
      · rw [(endSpan_name_et c).1]
        exact nameFree_name hf.1
      · exact nameFreeL_endSpan c (nameFree_children hf.1)
    · rw [Process.children, nameFreeL]
      refine ⟨?_, hf.2⟩
      refine nameFree_intro ?_ ?_
      · rw [(endSpan_name_et c).1]
        exact nameFree_name hf.1
      · exact nameFreeL_endSpan c (nameFree_children hf.1)

mutual
theorem forceNamedRoot_of_nameFree : ∀ p, nameFree p → forceNamedRoot p = p
  | .mk n bt et pt tt cs => by
    intro h
    rw [nameFree] at h
    rw [forceNamedRoot, if_neg h.1, forceNamedRootL_of_nameFree cs h.2]
theorem forceNamedRootL_of_nameFree : ∀ cs, nameFreeL cs → forceNamedRootL cs = cs
  | .nil => by intro _; rw [forceNamedRootL]
  | .cons c cs => by
    intro h
    rw [nameFreeL] at h
    rw [forceNamedRootL, forceNamedRoot_of_nameFree c h.1,
      forceNamedRootL_of_nameFree cs h.2]
end

/-- On a tree whose root is open and whose non-root nodes avoid the reserved
name, the snapshot round-trip is the identity. -/
theorem forceNamedRoot_id : ∀ p, p.end_time = -1 → nameFreeL p.children →
    forceNamedRoot p = p
  | .mk n bt et pt tt cs => by
    intro he hf
    rw [Process.end_time] at he
    rw [Process.children] at hf
    rw [forceNamedRoot, forceNamedRootL_of_nameFree cs hf]
    split_ifs
    · rw [he]
    · rfl

/-- The invariant of every reachable state with `k` open non-root spans: the
open nodes form a single chain from the root, no non-root node uses the
reserved name, and there are `k + 1` open nodes in all. -/
def Inv5 (k : ℕ) (p : Process) : Prop :=
  openChain p ∧ nameFreeL p.children ∧ openCount p = k + 1

theorem inv5_run : ∀ (tr : List (Op × ℚ)) (k : ℕ) (p u : Process),
    balB k tr = true → goodNamesB tr = true → timesOK tr →
    Inv5 k p → runTrace p tr = some u → Inv5 (balAfter k tr) u := by
  intro tr
  induction tr with
  | nil =>
    intro k p u _ _ _ hi hrun
    rw [runTrace] at hrun
    cases hrun
    rw [balAfter]
    exact hi
  | cons e tr ih =>
    intro k p u hb hg ht hi hrun
    obtain ⟨op, now⟩ := e
    rw [timesOK] at ht
    match op with
    | .enter nm =>
      simp only [balB] at hb
      simp only [goodNamesB, Bool.and_eq_true, decide_eq_true_eq] at hg
      rw [runTrace] at hrun
      cases hbg : Process.begin now nm p with
      | none => rw [step, hbg] at hrun; cases hrun
      | some p1 =>
        rw [step, hbg] at hrun
        rw [balAfter]
        refine ih (k+1) p1 u hb hg.2 ht.2
          ⟨chain_begin p p1 hbg hi.1, nameFreeL_begin hg.1 p p1 hbg hi.2.1, ?_⟩ hrun
        rw [count_begin p p1 hbg, hi.2.2]
    | .leave =>
      simp only [balB, Bool.and_eq_true, decide_eq_true_eq] at hb
      simp only [goodNamesB] at hg
      rw [runTrace, step] at hrun
      have hoc : hasOpenChild p :=
        openChain_two_openChild hi.1 (by have := hb.1; rw [hi.2.2]; omega)
      have hce := chain_endSpan ht.1 p hi.1 hoc
      rw [balAfter]
      refine ih (k-1) _ u hb.2 hg ht.2 ⟨hce.1, nameFreeL_endSpan p hi.2.1, ?_⟩ hrun
      have := hce.2
      rw [hi.2.2] at this
      omega
    | .saveload =>
      simp only [balB] at hb
      simp only [goodNamesB] at hg
      rw [runTrace, step] at hrun
      rw [roundtrip, forceNamedRoot_id p (openChain_et hi.1) hi.2.1] at hrun
      rw [balAfter]
      exact ih k p u hb hg ht.2 hi hrun

/-! ### The running-path walk names the open chain -/

/-- Dot-joining of the names along the running path (what the `while` loop of
`running_path` writes). -/
def dotJoin : List String → String
  | [] => ""
  | [s] => s
  | s :: t :: rest => s ++ "." ++ dotJoin (t :: rest)

theorem pathNodes_first : ∀ p : Process, ∃ rest, pathNodes p = p :: rest
  | .mk n bt et pt tt .nil => ⟨[], by rw [pathNodes]⟩
  | .mk n bt et pt tt (.cons c cs) => by
    rw [pathNodes]
    split_ifs
    · exact ⟨pathNodes c, rfl⟩
    · exact ⟨[], rfl⟩

theorem pathNodes_chain : ∀ p : Process,
    List.Chain' (fun a b => PMem b a.children) (pathNodes p)
  | .mk n bt et pt tt .nil => by
    rw [pathNodes]
    exact List.chain'_singleton _
  | .mk n bt et pt tt (.cons c cs) => by
    rw [pathNodes]
    split_ifs
    · obtain ⟨rest, hr⟩ := pathNodes_first c
      rw [hr, List.chain'_cons]
      constructor
      · rw [Process.children, PMem]
        exact Or.inl rfl
      · rw [← hr]
        exact pathNodes_chain c
    · exact List.chain'_singleton _

theorem pathNodes_last : ∀ p : Process, (pathNodes p).getLast? = some (openTail p)
  | .mk n bt et pt tt .nil => by rw [pathNodes, openTail]; rfl
  | .mk n bt et pt tt (.cons c cs) => by
    rw [pathNodes, openTail]
    split_ifs
    · obtain ⟨rest, hr⟩ := pathNodes_first c
      rw [hr, List.getLast?_cons_cons, ← hr]
      exact pathNodes_last c
    · rfl

theorem openTail_stop : ∀ p : Process, (openTail p).children = PList.nil ∨
    ∃ c cs, (openTail p).children = PList.cons c cs ∧ c.end_time ≠ -1
  | .mk n bt et pt tt .nil => by
    rw [openTail]
    exact Or.inl (by rw [Process.children])
  | .mk n bt et pt tt (.cons c cs) => by
    rw [openTail]
    split_ifs with h
    · exact openTail_stop c
    · exact Or.inr ⟨c, cs, by rw [Process.children], h⟩

theorem runningPath_dotJoin : ∀ p : Process,
    runningPathStr p = dotJoin ((pathNodes p).map Process.name)
  | .mk n bt et pt tt .nil => by
    rw [pathNodes, runningPathStr, List.map_singleton, dotJoin, Process.name]
  | .mk n bt et pt tt (.cons c cs) => by
    rw [pathNodes, runningPathStr]
    split_ifs
    · obtain ⟨rest, hr⟩ := pathNodes_first c
      rw [hr, List.map_cons, List.map_cons, dotJoin, ← List.map_cons, ← hr,
        ← runningPath_dotJoin c, Process.name]
    · rw [List.map_singleton, dotJoin, Process.name]

theorem path_all_open : ∀ p : Process, openChain p →
    ∀ v ∈ pathNodes p, v.end_time = -1
  | .mk n bt et pt tt .nil => by
    intro hc v hv
    rw [pathNodes, List.mem_singleton] at hv
    cases hv
    exact openChain_et hc
  | .mk n bt et pt tt (.cons c cs) => by
    intro hc v hv
    rw [pathNodes] at hv
    have hop := openChain_et hc
    rw [openChain] at hc
    split_ifs at hv with h
    · rw [List.mem_cons] at hv
      rcases hv with hv | hv
      · cases hv
        exact hop
      · rw [if_pos h] at hc
        exact path_all_open c hc.2.2 v hv
    · rw [List.mem_singleton] at hv
      cases hv
      exact hop

mutual
theorem allEnded_no_open : ∀ p, allEnded p → ∀ q v, getN? p q = some v →
    v.end_time ≠ -1
  | .mk n bt et pt tt cs => by
    intro h q v hv
    rw [allEnded] at h
    match q with
    | [] =>
      rw [getN?] at hv
      cases hv
      rw [Process.end_time]
      exact h.1
    | i :: q1 =>
      rw [getN?] at hv
      exact allEndedL_no_open cs h.2 i q1 v hv
theorem allEndedL_no_open : ∀ cs, allEndedL cs → ∀ i q v, getNL cs i q = some v →
    v.end_time ≠ -1
  | .nil => by
    intro _ i q v hv
    rw [getNL] at hv
    cases hv
  | .cons c cs => by
    intro h i q v hv
    rw [allEndedL] at h
    rw [getNL] at hv
    split_ifs at hv
    · exact allEnded_no_open c h.1 q v hv
    · exact allEndedL_no_open cs h.2 i q v hv
end

theorem open_mem_path : ∀ p, openChain p → ∀ q v, getN? p q = some v →
    v.end_time = -1 → v ∈ pathNodes p
  | .mk n bt et pt tt .nil => by
    intro hc q v hv hve
    match q with
    | [] =>
      rw [getN?] at hv
      cases hv
      rw [pathNodes]
      exact List.mem_singleton.2 rfl
    | i :: q1 =>
      rw [getN?, getNL] at hv
      cases hv
  | .mk n bt et pt tt (.cons c cs) => by
    intro hc q v hv hve
    rw [openChain] at hc
    match q with
    | [] =>
      rw [getN?] at hv
      cases hv
      obtain ⟨rest, hr⟩ := pathNodes_first (Process.mk n bt et pt tt (.cons c cs))
      rw [hr]
      exact List.mem_cons_self _ _
    | i :: q1 =>
      rw [getN?, getNL] at hv
      split_ifs at hv with hi
      · by_cases hce : c.end_time = -1
        · rw [if_pos hce] at hc
          rw [pathNodes, if_pos hce, List.mem_cons]
          exact Or.inr (open_mem_path c hc.2.2 q1 v hv hve)
        · rw [if_neg hce] at hc
          exact absurd hve (allEnded_no_open c hc.2.2 q1 v hv)
      · exact absurd hve (allEndedL_no_open cs hc.2.1 i q1 v hv)

theorem inv5_fresh (t0 : ℚ) : Inv5 0 (freshRoot t0) := by
  refine ⟨?_, ?_, ?_⟩
  · rw [freshRoot, Process.make, openChain]
  · rw [freshRoot, Process.make, Process.children]
    trivial
  · rw [freshRoot, Process.make, openCount, if_pos rfl, openCountL]

/-- C5 as amended: in every state reachable by a balanced
`enterSpan`/`leaveSpan`/save-load trace with nonnegative clock readings *in
which no span is entered under the reserved name `"root"`*, the open nodes
form a single chain from the root down along last children: every open node
lies on the `runningPath` walk, every node of that walk is open, consecutive
walk nodes are parent and child, the walk starts at the root and ends at the
active tail, which has either no children or an ended last child, and
`runningPath` names exactly that chain.  (Loading a snapshot of a tree with
an *ended* span named `"root"` breaks the chain — see the counterexample.) -/
theorem claim_C5_amended (t0 : ℚ) (tr : List (Op × ℚ)) (u : Process)
    (hbal : balB 0 tr = true) (hnames : goodNamesB tr = true) (ht : timesOK tr)
    (hrun : runTrace (freshRoot t0) tr = some u) :
    openChain u ∧
    (∀ q v, getN? u q = some v → v.end_time = -1 → v ∈ pathNodes u) ∧
    (∀ v ∈ pathNodes u, v.end_time = -1) ∧
    List.Chain' (fun a b => PMem b a.children) (pathNodes u) ∧
    (pathNodes u).head? = some u ∧
    (pathNodes u).getLast? = some (openTail u) ∧
    runningPathStr u = dotJoin ((pathNodes u).map Process.name) ∧
    ((openTail u).children = PList.nil ∨
      ∃ c cs, (openTail u).children = PList.cons c cs ∧ c.end_time ≠ -1) := by
  have hi := inv5_run tr 0 (freshRoot t0) u hbal hnames ht (inv5_fresh t0) hrun
  obtain ⟨rest, hr⟩ := pathNodes_first u
  exact ⟨hi.1, open_mem_path u hi.1, path_all_open u hi.1, pathNodes_chain u,
    by rw [hr]; rfl, pathNodes_last u, runningPath_dotJoin u, openTail_stop u⟩

/-- Witness for the amended C5: `enter "a"` at time 1 followed by a
save/load round-trip leaves the active-path chain intact. -/
theorem claim_C5_amended_witness :
    openChain (Process.mk "root" 0 (-1) 1 1 (.cons (.mk "a" 1 (-1) 0 0 .nil) .nil)) :=
  (claim_C5_amended 0 [(.enter "a", 1), (.saveload, 2)] _ (by decide) (by decide)
    ⟨by norm_num, by norm_num, trivial⟩
    (by norm_num [runTrace, step, Process.begin, Process.endSpan, Process.make,
          Process.end_time, Process.total_time, freshRoot, pyLower, lowerChar,
          serialize, serializeL, deserialize, deserializeL]
        decide)).1

/-- Counterexample to C5 as stated: enter a span under the name `"root"`,
leave it, enter `"b"`, then reload the saved snapshot — a balanced public
trace.  The hook reopens the *ended* child named `"root"`, so the open nodes
(root, that child, and `"b"`) no longer form a single chain. -/
theorem claim_C5_counterexample :
    balB 0 [(Op.enter "root", 1), (Op.leave, 2), (Op.enter "b", 3), (Op.saveload, 4)] = true ∧
    timesOK [(Op.enter "root", 1), (Op.leave, 2), (Op.enter "b", 3), (Op.saveload, 4)] ∧
    runTrace (freshRoot 0)
      [(Op.enter "root", 1), (Op.leave, 2), (Op.enter "b", 3), (Op.saveload, 4)] =
      some (Process.mk "root" 0 (-1) 2 3
        (.cons (.mk "b" 3 (-1) 0 0 .nil) (.cons (.mk "root" 1 (-1) 1 1 .nil) .nil))) ∧
    ¬ openChain (Process.mk "root" 0 (-1) 2 3
        (.cons (.mk "b" 3 (-1) 0 0 .nil) (.cons (.mk "root" 1 (-1) 1 1 .nil) .nil))) := by
  refine ⟨by decide, ⟨by norm_num, by norm_num, by norm_num, by norm_num, trivial⟩, ?_, ?_⟩
  · norm_num [runTrace, step, Process.begin, Process.endSpan, Process.make,
      Process.end_time, Process.total_time, freshRoot, pyLower, lowerChar,
      serialize, serializeL, deserialize, deserializeL]
    decide
  · intro h
    rw [openChain] at h
    have h2 := h.2.1
    rw [allEndedL] at h2
    have h3 := h2.1
    rw [allEnded] at h3
    exact h3.1 (by rfl)

theorem getNL_out : ∀ (cs : PList) (i : ℕ) (q : List ℕ), cs.length ≤ i →
    getNL cs i q = none
  | .nil, i, q => by intro _; rw [getNL]
  | .cons c cs, i, q => by
    intro h
    rw [PList.length] at h
    rw [getNL, if_neg (by omega)]
    exact getNL_out cs i q (by omega)

/-- `begin` never touches an ended node: any ended subtree is carried into
the result identically, at the same insertion address. -/
theorem preserve_begin {now : ℚ} {nm : String} :
    ∀ p p1 (q : List ℕ) (v : Process), Process.begin now nm p = some p1 →
      getN? p q = some v → v.end_time ≠ -1 → getN? p1 q = some v
  | .mk n bt et pt tt .nil, p1, q, v => by
    intro h hv hve
    rw [Process.begin] at h
    split_ifs at h with h1
    cases h
    push_neg at h1
    match q with
    | [] =>
      rw [getN?] at hv
      cases hv
      rw [Process.end_time] at hve
      exact absurd h1 hve
    | i :: q1 =>
      rw [getN?, getNL] at hv
      cases hv
  | .mk n bt et pt tt (.cons c cs), p1, q, v => by
    intro h hv hve
    rw [Process.begin] at h
    split_ifs at h with h1 h2
    · cases h
      push_neg at h1
      match q with
      | [] =>
        rw [getN?] at hv
        cases hv
        rw [Process.end_time] at hve
        exact absurd h1 hve
      | i :: q1 =>
        rw [getN?] at hv
        by_cases hi : i = cs.length + 1
        · rw [getNL, if_neg (by omega)] at hv
          rw [getNL_out cs i q1 (by omega)] at hv
          cases hv
        · rw [getN?, getNL, if_neg (by simp only [PList.length]; omega)]
          exact hv
    · cases hb : Process.begin now nm c with
      | none => rw [hb] at h; cases h
      | some c1 =>
        rw [hb] at h
        cases h
        push_neg at h1
        match q with
        | [] =>
          rw [getN?] at hv
          cases hv
          rw [Process.end_time] at hve
          exact absurd h1 hve
        | i :: q1 =>
          rw [getN?] at hv ⊢
          rw [getNL] at hv ⊢
          split_ifs at hv ⊢ with hi
          · exact preserve_begin c c1 q1 v hb hv hve
          · exact hv

/-- While the root is open, `end` never touches an ended node either: it only
walks open last children and closes the open tail. -/
theorem preserve_endSpan {now : ℚ} :
    ∀ p (q : List ℕ) (v : Process), p.end_time = -1 →
      getN? p q = some v → v.end_time ≠ -1 →
      getN? (Process.endSpan now p).2 q = some v
  | .mk n bt et pt tt .nil, q, v => by
    intro hp hv hve
    rw [Process.end_time] at hp
    match q with
    | [] =>
      rw [getN?] at hv
      cases hv
      rw [Process.end_time] at hve
      exact absurd hp hve
    | i :: q1 =>
      rw [getN?, getNL] at hv
      cases hv
  | .mk n bt et pt tt (.cons c cs), q, v => by
    intro hp hv hve
    rw [Process.end_time] at hp
    rw [Process.endSpan]
    split_ifs with h1 h2 <;> dsimp only
    · match q with
      | [] =>
        rw [getN?] at hv
        cases hv
        rw [Process.end_time] at hve
        exact absurd hp hve
      | i :: q1 =>
        rw [getN?] at hv ⊢
        exact hv
    · push_neg at h1
      match q with
      | [] =>
        rw [getN?] at hv
        cases hv
        rw [Process.end_time] at hve
        exact absurd hp hve
      | i :: q1 =>
        rw [getN?] at hv ⊢
        rw [getNL] at hv ⊢
        split_ifs at hv ⊢ with hi
        · exact preserve_endSpan c q1 v h1 hv hve
        · exact hv
    · push_neg at h1
      match q with
      | [] =>
        rw [getN?] at hv
        cases hv
        rw [Process.end_time] at hve
        exact absurd hp hve
      | i :: q1 =>
        rw [getN?] at hv ⊢
        rw [getNL] at hv ⊢
        split_ifs at hv ⊢ with hi
        · exact preserve_endSpan c q1 v h1 hv hve
        · exact hv

theorem preserve_run : ∀ (tr : List (Op × ℚ)) (k : ℕ) (u1 u2 : Process),
    balB k tr = true → goodNamesB tr = true → timesOK tr → Inv5 k u1 →
    runTrace u1 tr = some u2 →
    ∀ (q : List ℕ) (v : Process), getN? u1 q = some v → v.end_time ≠ -1 →
      getN? u2 q = some v := by
  intro tr
  induction tr with
  | nil =>
    intro k u1 u2 _ _ _ _ hrun q v hv hve
    rw [runTrace] at hrun
    cases hrun
    exact hv
  | cons e tr ih =>
    intro k u1 u2 hb hg ht hi hrun q v hv hve
    obtain ⟨op, now⟩ := e
    rw [timesOK] at ht
    match op with
    | .enter nm =>
      simp only [balB] at hb
      simp only [goodNamesB, Bool.and_eq_true, decide_eq_true_eq] at hg
      rw [runTrace] at hrun
      cases hbg : Process.begin now nm u1 with
      | none => rw [step, hbg] at hrun; cases hrun
      | some p1 =>
        rw [step, hbg] at hrun
        refine ih (k+1) p1 u2 hb hg.2 ht.2
          ⟨chain_begin u1 p1 hbg hi.1, nameFreeL_begin hg.1 u1 p1 hbg hi.2.1, ?_⟩
          hrun q v (preserve_begin u1 p1 q v hbg hv hve) hve
        rw [count_begin u1 p1 hbg, hi.2.2]
    | .leave =>
      simp only [balB, Bool.and_eq_true, decide_eq_true_eq] at hb
      simp only [goodNamesB] at hg
      rw [runTrace, step] at hrun
      have hoc : hasOpenChild u1 :=
        openChain_two_openChild hi.1 (by have := hb.1; rw [hi.2.2]; omega)
      have hce := chain_endSpan ht.1 u1 hi.1 hoc
      refine ih (k-1) _ u2 hb.2 hg ht.2 ⟨hce.1, nameFreeL_endSpan u1 hi.2.1, ?_⟩
        hrun q v (preserve_endSpan u1 q v (openChain_et hi.1) hv hve) hve
      have := hce.2
      rw [hi.2.2] at this
      omega
    | .saveload =>
      simp only [balB] at hb
      simp only [goodNamesB] at hg
      rw [runTrace, step] at hrun
      rw [roundtrip, forceNamedRoot_id u1 (openChain_et hi.1) hi.2.1] at hrun
      exact ih k u1 u2 hb hg ht.2 hi hrun q v hv hve

/-- C3 as amended: along any balanced `enterSpan`/`leaveSpan`/save-load
session with nonnegative clock readings in which no span is entered under the
reserved name `"root"` (so the root stays open and the load fixup is the
identity), once a node has an `endTime` its entire subtree — in particular
its `personalTime`, `totalTime`, `endTime` and number of children — is never
changed by any subsequent operation.  The original claim's "in particular the
root after the tree is fully drained" clause is dropped: a drained root is
*not* protected (see the counterexample), and a reloaded node named `"root"`
is forced open. -/
theorem claim_C3_amended (t0 : ℚ) (tr1 tr2 : List (Op × ℚ)) (u1 u2 v : Process)
    (q : List ℕ)
    (hb1 : balB 0 tr1 = true) (hn1 : goodNamesB tr1 = true) (ht1 : timesOK tr1)
    (hb2 : balB (balAfter 0 tr1) tr2 = true) (hn2 : goodNamesB tr2 = true)
    (ht2 : timesOK tr2)
    (h1 : runTrace (freshRoot t0) tr1 = some u1)
    (hv : getN? u1 q = some v) (hve : v.end_time ≠ -1)
    (h2 : runTrace u1 tr2 = some u2) :
    getN? u2 q = some v := by
  have hi := inv5_run tr1 0 (freshRoot t0) u1 hb1 hn1 ht1 (inv5_fresh t0) h1
  exact preserve_run tr2 (balAfter 0 tr1) u1 u2 hb2 hn2 ht2 hi h2 q v hv hve

/-- Witness for the amended C3: the child `"a"`, ended at time 2, is
untouched by a later `enter "b"`. -/
theorem claim_C3_amended_witness :
    getN? (Process.mk "root" 0 (-1) 2 3
        (.cons (.mk "b" 3 (-1) 0 0 .nil) (.cons (.mk "a" 1 2 1 1 .nil) .nil)))
      [0] = some (Process.mk "a" 1 2 1 1 .nil) :=
  claim_C3_amended 0 [(.enter "a", 1), (.leave, 2)] [(.enter "b", 3)]
    (Process.mk "root" 0 (-1) 1 2 (.cons (.mk "a" 1 2 1 1 .nil) .nil)) _
    (Process.mk "a" 1 2 1 1 .nil) [0]
    (by decide) (by decide) ⟨by norm_num, by norm_num, trivial⟩
    (by decide) (by decide) ⟨by norm_num, trivial⟩
    (by norm_num [runTrace, step, Process.begin, Process.endSpan, Process.make,
          Process.end_time, Process.total_time, freshRoot, pyLower, lowerChar]
        decide)
    (by norm_num [getN?, getNL, PList.length])
    (by rw [Process.end_time]; norm_num)
    (by norm_num [runTrace, step, Process.begin, Process.endSpan, Process.make,
          Process.end_time, Process.total_time, freshRoot, pyLower, lowerChar]
        decide)

/-- Counterexample to C3 as stated: drain the tree (`enter "a"`, `leave`,
`leave` — the root ends at time 3), then call the public `leaveSpan` once
more.  `Process.end` has no ended-guard, so it *re-ends* the already-ended
root, changing its `endTime` from 3 to 4 and growing its `personalTime` and
`totalTime`. -/
theorem claim_C3_counterexample :
    runTrace (freshRoot 0) [(Op.enter "a", 1), (Op.leave, 2), (Op.leave, 3)] =
      some (Process.mk "root" 0 3 2 3 (.cons (.mk "a" 1 2 1 1 .nil) .nil)) ∧
    (Process.mk "root" 0 3 2 3 (.cons (.mk "a" 1 2 1 1 .nil) .nil)).end_time ≠ -1 ∧
    (Process.endSpan 4
        (Process.mk "root" 0 3 2 3 (.cons (.mk "a" 1 2 1 1 .nil) .nil))).2.end_time = 4 ∧
    (Process.endSpan 4
        (Process.mk "root" 0 3 2 3 (.cons (.mk "a" 1 2 1 1 .nil) .nil))).2.personal_time = 4 ∧
    (Process.endSpan 4
        (Process.mk "root" 0 3 2 3 (.cons (.mk "a" 1 2 1 1 .nil) .nil))).2.total_time = 5 := by
  refine ⟨?_, by rw [Process.end_time]; norm_num, ?_, ?_, ?_⟩
  · norm_num [runTrace, step, Process.begin, Process.endSpan, Process.make,
      Process.end_time, Process.total_time, freshRoot, pyLower, lowerChar]
    decide
  all_goals
    norm_num [Process.endSpan, Process.end_time, Process.personal_time,
      Process.total_time]

/-! ## Claims C10 and C6: the exact frame effect of one `enterSpan` /
`leaveSpan` -/

theorem make_no_sub {nm : String} {now : ℚ} :
    ∀ q : List ℕ, q ≠ [] → getN? (Process.make nm now) q = none := by
  intro q hq
  match q with
  | [] => exact absurd rfl hq
  | i :: q1 => rw [Process.make, getN?, getNL]

theorem scal_mk (n : String) (bt et pt tt : ℚ) (cs : PList) :
    scal (Process.mk n bt et pt tt cs) = ⟨n, bt, et, pt, tt, cs.length⟩ := rfl

/-- The full frame effect of `begin` on a tree with an open root: it appends
one fresh node as the new last child of the active-path tail, adds the same
gap (clock minus the tail's previous marker) to the tail's `personal_time`
and `total_time`, and leaves the node-local data of every other node — and
the addresses of all existing nodes — unchanged. -/
theorem begin_frame (now : ℚ) (nm : String) :
    ∀ t : Process, t.end_time = -1 →
    ∃ t1, Process.begin now nm t = some t1 ∧
      scalAt t1 (tailPath t) = some ⟨(openTail t).name, (openTail t).begin_time,
        (openTail t).end_time,
        (openTail t).personal_time + (now - marker (openTail t)),
        (openTail t).total_time + (now - marker (openTail t)),
        (openTail t).children.length + 1⟩ ∧
      scalAt t1 (tailPath t ++ [(openTail t).children.length]) =
        some ⟨pyLower nm, now, -1, 0, 0, 0⟩ ∧
      ∀ q, q ≠ tailPath t → q ≠ tailPath t ++ [(openTail t).children.length] →
        scalAt t1 q = scalAt t q
  | .mk n bt et pt tt .nil => by
    intro ht
    rw [Process.end_time] at ht
    refine ⟨Process.mk n bt et (pt + (now - bt)) (tt + (now - bt))
      (.cons (Process.make nm now) .nil), ?_, ?_, ?_, ?_⟩
    · rw [Process.begin, if_neg (by simp [ht])]
    · simp [scalAt, getN?, tailPath, openTail, scal, Process.name,
        Process.begin_time, Process.end_time, Process.personal_time,
        Process.total_time, Process.children, PList.length, marker]
    · simp [scalAt, getN?, getNL, tailPath, openTail, Process.children,
        PList.length, scal, Process.make, Process.name, Process.begin_time,
        Process.end_time, Process.personal_time, Process.total_time, pyLower]
    · intro q hq1 hq2
      rw [tailPath] at hq1 hq2
      rw [openTail, Process.children, PList.length] at hq2
      match q with
      | [] => exact absurd rfl hq1
      | i :: q1 =>
        rw [scalAt, scalAt, getN?, getN?]
        rw [getNL, getNL]
        by_cases hi : i = PList.length PList.nil
        · rw [if_pos hi]
          have hq1ne : q1 ≠ [] := by
            intro h
            apply hq2
            rw [h, hi, PList.length]
            rfl
          rw [make_no_sub q1 hq1ne]
        · rw [if_neg hi, getNL]
  | .mk n bt et pt tt (.cons c cs) => by
    intro ht
    rw [Process.end_time] at ht
    by_cases hc : c.end_time = -1
    · -- the last child is still running: `begin` delegates to it
      obtain ⟨c1, hb, ih1, ih2, ih3⟩ := begin_frame now nm c hc
      refine ⟨Process.mk n bt et pt tt (.cons c1 cs), ?_, ?_, ?_, ?_⟩
      · rw [Process.begin, if_neg (by simp [ht]), if_neg (by simp [hc]), hb]
        rfl
      · rw [tailPath, if_pos hc, openTail, if_pos hc]
        rw [scalAt, getN?, getNL, if_pos rfl]
        exact ih1
      · rw [tailPath, if_pos hc, openTail, if_pos hc]
        rw [List.cons_append]
        rw [scalAt, getN?, getNL, if_pos rfl]
        exact ih2
      · intro q hq1 hq2
        rw [tailPath, if_pos hc] at hq1 hq2
        rw [openTail, if_pos hc] at hq2
        match q with
        | [] =>
          rw [scalAt, scalAt, getN?, getN?]
          simp [scal_mk, PList.length]
        | i :: q1 =>
          rw [scalAt, scalAt, getN?, getN?, getNL, getNL]
          by_cases hi : i = cs.length
          · rw [if_pos hi, if_pos hi]
            have g1 : q1 ≠ tailPath c := by
              intro h; exact hq1 (by rw [h, hi])
            have g2 : q1 ≠ tailPath c ++ [(openTail c).children.length] := by
              intro h; exact hq2 (by simp [h, hi])
            exact ih3 q1 g1 g2
          · rw [if_neg hi, if_neg hi]
    · -- the last child has ended: a fresh child is appended here
      refine ⟨Process.mk n bt et (pt + (now - c.end_time)) (tt + (now - c.end_time))
        (.cons (Process.make nm now) (.cons c cs)), ?_, ?_, ?_, ?_⟩
      · rw [Process.begin, if_neg (by simp [ht]), if_pos (by simp [hc])]
      · rw [tailPath, if_neg hc, openTail, if_neg hc]
        rw [scalAt, getN?]
        simp [scal, Process.name, Process.begin_time, Process.end_time,
          Process.personal_time, Process.total_time, Process.children,
          PList.length, marker]
      · rw [tailPath, if_neg hc, openTail, if_neg hc]
        rw [Process.children, PList.length, List.nil_append]
        rw [scalAt, getN?, getNL, if_pos (by rw [PList.length])]
        rw [getN?]
        simp [scal, Process.make, Process.name, Process.begin_time,
          Process.end_time, Process.personal_time, Process.total_time,
          Process.children, PList.length]
      · intro q hq1 hq2
        rw [tailPath, if_neg hc] at hq1 hq2
        rw [openTail, if_neg hc, Process.children, PList.length,
          List.nil_append] at hq2
        match q with
        | [] => exact absurd rfl hq1
        | i :: q1 =>
          rw [scalAt, scalAt, getN?, getN?, getNL]
          by_cases hi : i = PList.length (PList.cons c cs)
          · rw [if_pos hi]
            have hq1ne : q1 ≠ [] := by
              intro h
              apply hq2
              rw [h, hi, PList.length]
            rw [make_no_sub q1 hq1ne]
            rw [getNL_out (.cons c cs) i q1 (by rw [hi])]
          · rw [if_neg hi]

theorem scalAt_nil {p : Process} {s : Scal} (h : scalAt p [] = some s) :
    p.end_time = s.end_time ∧ p.total_time = s.total_time := by
  rw [scalAt, getN?, Option.map_some'] at h
  cases h
  exact ⟨rfl, rfl⟩

/-- The full frame effect of `end` on a tree with an open root: it closes
exactly the active-path tail (setting its `endTime` to the clock and adding
the gap since its previous marker to both of its times), adds the closed
node's final `totalTime` to its parent's `totalTime` only (never to
`personalTime`), returns the closed node's name unmodified, leaves the root
open whenever the closed node was not the root itself, and leaves the
node-local data of every other node unchanged. -/
theorem endSpan_frame (now : ℚ) (hnow : now ≠ -1) :
    ∀ t : Process, t.end_time = -1 →
      (Process.endSpan now t).1 = (openTail t).name ∧
      scalAt (Process.endSpan now t).2 (tailPath t) =
        some ⟨(openTail t).name, (openTail t).begin_time, now,
          (openTail t).personal_time + (now - marker (openTail t)),
          (openTail t).total_time + (now - marker (openTail t)),
          (openTail t).children.length⟩ ∧
      (tailPath t ≠ [] →
        scalAt (Process.endSpan now t).2 ((tailPath t).dropLast) =
          (scalAt t ((tailPath t).dropLast)).map (fun s =>
            ⟨s.name, s.begin_time, s.end_time, s.personal_time,
              s.total_time + ((openTail t).total_time + (now - marker (openTail t))),
              s.nChildren⟩)) ∧
      (tailPath t ≠ [] → (Process.endSpan now t).2.end_time = -1) ∧
      ∀ q, q ≠ tailPath t → q ≠ (tailPath t).dropLast →
        scalAt (Process.endSpan now t).2 q = scalAt t q
  | .mk n bt et pt tt .nil => by
    intro ht
    rw [Process.end_time] at ht
    rw [Process.endSpan, tailPath, openTail]
    refine ⟨rfl, ?_, fun h => absurd rfl h, fun h => absurd rfl h, ?_⟩
    · simp [scalAt, getN?, scal, Process.name, Process.begin_time,
        Process.end_time, Process.personal_time, Process.total_time,
        Process.children, PList.length, marker]
    · intro q hq1 _
      match q with
      | [] => exact absurd rfl hq1
      | i :: q1 => rw [scalAt, scalAt, getN?, getN?, getNL]
  | .mk n bt et pt tt (.cons c cs) => by
    intro ht
    rw [Process.end_time] at ht
    by_cases hc : c.end_time = -1
    · -- the last child is running: `end` recurses into it
      have ih := endSpan_frame now hnow c hc
      rw [Process.endSpan, if_neg (by simp [hc])]
      rw [tailPath, if_pos hc, openTail, if_pos hc]
      by_cases hpc : tailPath c = []
      · -- the child is the tail: it transitions to ended here
        rw [hpc] at ih
        have hsc := scalAt_nil ih.2.1
        have het : (Process.endSpan now c).2.end_time = now := hsc.1
        rw [if_pos (by rw [het]; exact hnow)]
        dsimp only
        refine ⟨ih.1, ?_, ?_, ?_, ?_⟩
        · rw [hpc, scalAt, getN?, getNL, if_pos rfl]
          exact ih.2.1
        · intro _
          rw [hpc, List.dropLast_single]
          rw [scalAt, scalAt, getN?, getN?, Option.map_some', Option.map_some',
            Option.map_some']
          rw [scal_mk, scal_mk]
          have htt : (Process.endSpan now c).2.total_time =
              (openTail c).total_time + (now - marker (openTail c)) := hsc.2.trans rfl
          rw [htt]
          simp [PList.length]
        · intro _
          rw [Process.end_time]
          exact ht
        · intro q hq1 hq2
          rw [hpc] at hq1 hq2
          rw [List.dropLast_single] at hq2
          match q with
          | [] => exact absurd rfl hq2
          | i :: q1 =>
            rw [scalAt, scalAt, getN?, getN?, getNL, getNL]
            by_cases hi : i = cs.length
            · rw [if_pos hi, if_pos hi]
              have g1 : q1 ≠ [] := by
                intro h; exact hq1 (by rw [h, hi])
              exact ih.2.2.2.2 q1 g1 (by rw [List.dropLast_nil]; exact g1)
            · rw [if_neg hi, if_neg hi]
      · -- the tail is deeper: the child stays open
        have hrop : (Process.endSpan now c).2.end_time = -1 := ih.2.2.2.1 hpc
        rw [if_neg (by simp [hrop])]
        dsimp only
        refine ⟨ih.1, ?_, ?_, ?_, ?_⟩
        · rw [scalAt, getN?, getNL, if_pos rfl]
          exact ih.2.1
        · intro _
          rw [List.dropLast_cons_of_ne_nil hpc]
          rw [scalAt, scalAt, getN?, getN?, getNL, getNL, if_pos rfl, if_pos rfl]
          exact ih.2.2.1 hpc
        · intro _
          rw [Process.end_time]
          exact ht
        · intro q hq1 hq2
          rw [List.dropLast_cons_of_ne_nil hpc] at hq2
          match q with
          | [] =>
            rw [scalAt, scalAt, getN?, getN?]
            simp [scal_mk, PList.length]
          | i :: q1 =>
            rw [scalAt, scalAt, getN?, getN?, getNL, getNL]
            by_cases hi : i = cs.length
            · rw [if_pos hi, if_pos hi]
              have g1 : q1 ≠ tailPath c := by
                intro h; exact hq1 (by rw [h, hi])
              have g2 : q1 ≠ (tailPath c).dropLast := by
                intro h; exact hq2 (by rw [h, hi])
              exact ih.2.2.2.2 q1 g1 g2
            · rw [if_neg hi, if_neg hi]
    · -- the last child has ended (or there is none): this node is the tail
      rw [Process.endSpan, if_pos (by simp [hc])]
      rw [tailPath, if_neg hc, openTail, if_neg hc]
      refine ⟨rfl, ?_, fun h => absurd rfl h, fun h => absurd rfl h, ?_⟩
      · simp [scalAt, getN?, scal, Process.name, Process.begin_time,
          Process.end_time, Process.personal_time, Process.total_time,
          Process.children, PList.length, marker]
      · intro q hq1 _
        match q with
        | [] => exact absurd rfl hq1
        | i :: q1 => rw [scalAt, scalAt, getN?, getN?]

/-- C6: on any tree whose root is not ended (with a clock reading distinct
from the `-1` sentinel, as real wall-clock readings are), a single
`leaveSpan` closes exactly one node — the active-path tail, the deepest open
node — setting its `endTime` to the clock and returning its name unmodified;
if that node has a parent, the closed node's final `totalTime` is added to
the parent's `totalTime` and not to its `personalTime`; the node-local data
of every other node is unchanged, and in particular the root is never closed
as a side effect of closing a descendant. -/
theorem claim_C6 (t : Process) (now : ℚ) (ht : t.end_time = -1) (hnow : now ≠ -1) :
    (Process.endSpan now t).1 = (openTail t).name ∧
    scalAt (Process.endSpan now t).2 (tailPath t) =
      some ⟨(openTail t).name, (openTail t).begin_time, now,
        (openTail t).personal_time + (now - marker (openTail t)),
        (openTail t).total_time + (now - marker (openTail t)),
        (openTail t).children.length⟩ ∧
    (tailPath t ≠ [] →
      scalAt (Process.endSpan now t).2 ((tailPath t).dropLast) =
        (scalAt t ((tailPath t).dropLast)).map (fun s =>
          ⟨s.name, s.begin_time, s.end_time, s.personal_time,
            s.total_time + ((openTail t).total_time + (now - marker (openTail t))),
            s.nChildren⟩)) ∧
    (tailPath t ≠ [] → (Process.endSpan now t).2.end_time = -1) ∧
    ∀ q, q ≠ tailPath t → q ≠ (tailPath t).dropLast →
      scalAt (Process.endSpan now t).2 q = scalAt t q :=
  endSpan_frame now hnow t ht

/-- Witness for C6: leaving at time 2 the tree in which `"a"` (entered at
time 1) is still running returns the name `"a"` — the deepest open node. -/
theorem claim_C6_witness :
    (Process.endSpan 2
      (Process.mk "root" 0 (-1) 1 1 (.cons (.mk "a" 1 (-1) 0 0 .nil) .nil))).1 =
    (openTail
      (Process.mk "root" 0 (-1) 1 1 (.cons (.mk "a" 1 (-1) 0 0 .nil) .nil))).name :=
  (claim_C6 (Process.mk "root" 0 (-1) 1 1 (.cons (.mk "a" 1 (-1) 0 0 .nil) .nil))
    2 (by rfl) (by norm_num)).1

/-- C10: on any tree whose root is not ended, a single `enterSpan` succeeds
and appends exactly one fresh node as the new last child of the active-path
tail (address `tailPath ++ [old child count]`), adds the same gap — clock
minus the tail's previous marker — to the tail's `personalTime` and
`totalTime`, and leaves the node-local data (name, beginTime, endTime,
personalTime, totalTime, child count) of every other node, at every other
address, unchanged. -/
theorem claim_C10 (t : Process) (now : ℚ) (nm : String) (ht : t.end_time = -1) :
    (Process.begin now nm t).isSome ∧
    ∀ t1, Process.begin now nm t = some t1 →
      scalAt t1 (tailPath t) = some ⟨(openTail t).name, (openTail t).begin_time,
        (openTail t).end_time,
        (openTail t).personal_time + (now - marker (openTail t)),
        (openTail t).total_time + (now - marker (openTail t)),
        (openTail t).children.length + 1⟩ ∧
      scalAt t1 (tailPath t ++ [(openTail t).children.length]) =
        some ⟨pyLower nm, now, -1, 0, 0, 0⟩ ∧
      ∀ q, q ≠ tailPath t → q ≠ tailPath t ++ [(openTail t).children.length] →
        scalAt t1 q = scalAt t q := by
  obtain ⟨t1, hb, h1, h2, h3⟩ := begin_frame now nm t ht
  constructor
  · rw [hb]
    rfl
  · intro t2 hb2
    rw [hb] at hb2
    cases hb2
    exact ⟨h1, h2, h3⟩

/-- Witness for C10: entering `"A"` at time 1 into a fresh root creates the
lower-cased child `"a"` at the tail's first child slot. -/
theorem claim_C10_witness :
    scalAt (Process.mk "root" 0 (-1) 1 1 (.cons (.mk "a" 1 (-1) 0 0 .nil) .nil))
      (tailPath (Process.mk "root" 0 (-1) 0 0 .nil) ++
        [(openTail (Process.mk "root" 0 (-1) 0 0 .nil)).children.length]) =
      some ⟨pyLower "A", 1, -1, 0, 0, 0⟩ :=
  (((claim_C10 (Process.mk "root" 0 (-1) 0 0 .nil) 1 "A" (by rfl)).2
    (Process.mk "root" 0 (-1) 1 1 (.cons (.mk "a" 1 (-1) 0 0 .nil) .nil))
    (by norm_num [Process.begin, Process.make, Process.end_time, pyLower, lowerChar]
        decide)).2).1
